import Mathlib

/-!
# Nodestore (importer/nodestore.hpp)

A shallow embedding of the temporal position store of the OSM history
importer: `record`, `lookup`, `forgeGeometry` and `calculateMinorTimes`.

Modelling conventions

* `time_t` and `osm_object_id_t` are signed machine integers that are only
  compared, never computed with: they are `Int`.
* `double` values are only stored, copied and compared with `==`; a `Double`
  is its IEEE-754 binary64 bit pattern.
* `std::map` is a list of key/value pairs kept in ascending key order by
  `insert`; an iterator is a position in that list, `begin()` is position `0`
  and `end()` is position `length`.
* A result of `none` stands for undefined behaviour of the C++ code
  (dereferencing or stepping past `end()`).
* Output written to `std::cerr` is not modelled; `m_storeerrors` and
  `Osmium::debug()` only select such output.
-/

namespace Importer

/-! ## Scalars -/

abbrev time_t := Int

abbrev osm_object_id_t := Int

abbrev osm_version_t := Nat

/-- An IEEE-754 binary64 value, given by its 64-bit pattern. -/
structure Double where
  bits : Nat
deriving DecidableEq, Repr

/-- The 64-bit pattern of a double. -/
def Double.pattern (d : Double) : Nat := d.bits % 2 ^ 64

/-- A double is a NaN when its exponent field is all ones and its fraction is non-zero. -/
def Double.isNaN (d : Double) : Bool :=
  (d.pattern / 2 ^ 52) % 2 ^ 11 == 2047 && d.pattern % 2 ^ 52 != 0

/-- The `==` operator of C++ on doubles: NaN equals nothing, `+0.0 == -0.0`,
every other value equals only its own bit pattern. -/
def Double.eq (a b : Double) : Bool :=
  !a.isNaN && !b.isNaN &&
    (a.pattern == b.pattern || (a.pattern % 2 ^ 63 == 0 && b.pattern % 2 ^ 63 == 0))

/-- The literal `0` converted to double (`+0.0`). -/
def Double.zero : Double := ⟨0⟩

/-- The constant `DoubleNotANumber` of GEOS (a quiet NaN). -/
def DoubleNotANumber : Double := ⟨0x7FF8000000000000⟩

/-! ## Data model -/

/-- The struct `Nodestore::Nodeinfo`, fields in declaration order. -/
structure Nodeinfo where
  lat : Double
  lon : Double
deriving DecidableEq, Repr

/-- The type `std::map< time_t, Nodeinfo >`: entries in ascending key order. -/
abbrev timemap := List (time_t × Nodeinfo)

/-- The type `std::map< osm_object_id_t, timemap* >`; every pointer is owned by
exactly one entry, so the entry holds the pointed-to timemap itself. -/
abbrev nodemap := List (osm_object_id_t × timemap)

/-- The class `Nodestore` (its two data members). -/
structure Nodestore where
  m_nodemap : nodemap
  m_storeerrors : Bool
deriving DecidableEq, Repr

/-! ## The operations of `std::map` that the store uses -/

/-- The call `tmap->insert(timepair(t, info))`: the pair is placed at its
position in key order; when the key is already present nothing is changed. -/
def timemap.insert : timemap → time_t → Nodeinfo → timemap
  | [], t, info => [(t, info)]
  | (k, v) :: rest, t, info =>
    if t < k then (t, info) :: (k, v) :: rest
    else if k < t then (k, v) :: timemap.insert rest t info
    else (k, v) :: rest

/-- The call `tmap->upper_bound(t)`: position of the first entry whose key is
greater than `t`, `end()` when there is none. -/
def timemap.upper_bound : timemap → time_t → Nat
  | [], _ => 0
  | (k, _) :: rest, t => if t < k then 0 else timemap.upper_bound rest t + 1

/-- The call `tmap->lower_bound(t)`: position of the first entry whose key is
not less than `t`, `end()` when there is none. -/
def timemap.lower_bound : timemap → time_t → Nat
  | [], _ => 0
  | (k, _) :: rest, t => if k < t then timemap.lower_bound rest t + 1 else 0

/-- The call `m_nodemap.find(id)`, giving the timemap the found entry points
to, or `none` for `m_nodemap.end()`. -/
def nodemap.find : nodemap → osm_object_id_t → Option timemap
  | [], _ => none
  | (k, tm) :: rest, id => if k = id then some tm else nodemap.find rest id

/-- The call `m_nodemap.insert(nodepair(id, tmap))`. -/
def nodemap.insert : nodemap → osm_object_id_t → timemap → nodemap
  | [], id, tm => [(id, tm)]
  | (k, v) :: rest, id, tm =>
    if id < k then (id, tm) :: (k, v) :: rest
    else if k < id then (k, v) :: nodemap.insert rest id tm
    else (k, v) :: rest

/-- A write through the pointer stored under `id`: the timemap that entry
points to becomes `f` of what it was. -/
def nodemap.writeThrough : nodemap → osm_object_id_t → (timemap → timemap) → nodemap
  | [], _, _ => []
  | (k, tm) :: rest, id, f =>
    if k = id then (k, f tm) :: rest else (k, tm) :: nodemap.writeThrough rest id f

/-! ## `Nodestore` -/

/-- The constructor `Nodestore(bool storeerrors)`. -/
def Nodestore.new (storeerrors : Bool) : Nodestore := ⟨[], storeerrors⟩

/-- The method `Nodestore::record`. -/
def Nodestore.record (s : Nodestore) (id : osm_object_id_t) (_v : osm_version_t)
    (t : time_t) (lon lat : Double) : Nodestore :=
  let info : Nodeinfo := ⟨lon, lat⟩
  match nodemap.find s.m_nodemap id with
  | none =>
    let m := nodemap.insert s.m_nodemap id []
    { s with m_nodemap := nodemap.writeThrough m id (fun tmap => timemap.insert tmap t info) }
  | some _ =>
    { s with m_nodemap :=
        nodemap.writeThrough s.m_nodemap id (fun tmap => timemap.insert tmap t info) }

/-- The method `Nodestore::lookup`; the pair is the returned `Nodeinfo` and the
value written to `found`. The result is `none` when `tit` is `end()` at the
final dereference. -/
def Nodestore.lookup (s : Nodestore) (id : osm_object_id_t) (t : time_t) :
    Option (Nodeinfo × Bool) :=
  match nodemap.find s.m_nodemap id with
  | none => some (⟨Double.zero, Double.zero⟩, false)
  | some tmap =>
    let tit := timemap.upper_bound tmap t
    let tit := if tit = 0 then tit else tit - 1
    match tmap[tit]? with
    | none => none
    | some e => some (e.2, true)

/-! ## Geometry -/

/-- A `geos::geom::Coordinate`. -/
structure Coordinate where
  x : Double
  y : Double
  z : Double
deriving DecidableEq, Repr

/-- The `operator==` of `geos::geom::Coordinate` (two-dimensional equality). -/
def Coordinate.equals (a b : Coordinate) : Bool := a.x.eq b.x && a.y.eq b.y

/-- The geometries `forgeGeometry` can build, with their SRID. -/
inductive Geometry where
  | Polygon (shell : List Coordinate) (srid : Int)
  | LineString (points : List Coordinate) (srid : Int)
deriving DecidableEq, Repr

/-- The GEOS geometry factory, as far as `forgeGeometry` depends on it: whether
building a geometry from a coordinate sequence raises a `GEOSException`. -/
structure GeometryFactory where
  /-- Whether `createPolygon(createLinearRing(create(c)), NULL)` throws. -/
  createPolygonThrows : List Coordinate → Bool
  /-- Whether `createLineString(create(c))` throws. -/
  createLineStringThrows : List Coordinate → Bool

/-- The loop of `forgeGeometry` over the way nodes; `c` is the coordinate
vector filled so far. -/
def Nodestore.forgeCoordinates (s : Nodestore) :
    List osm_object_id_t → time_t → List Coordinate → Option (List Coordinate)
  | [], _, c => some c
  | id :: rest, t, c =>
    match s.lookup id t with
    | none => none
    | some (info, found) =>
      if !found then Nodestore.forgeCoordinates s rest t c
      else Nodestore.forgeCoordinates s rest t
        (c ++ [Coordinate.mk info.lat info.lon DoubleNotANumber])

/-- The part of `forgeGeometry` after the loop; `none` is the `NULL` result. -/
def forgeFromCoordinates (f : GeometryFactory) (c : List Coordinate)
    (looksLikePolygon : Bool) : Option Geometry :=
  if c.length < 2 then none
  else
    match c.head?, c.getLast? with
    | some front, some back =>
      if looksLikePolygon && front.equals back && decide (c.length ≥ 4) then
        if f.createPolygonThrows c then none else some (Geometry.Polygon c 900913)
      else
        if f.createLineStringThrows c then none else some (Geometry.LineString c 900913)
    | _, _ => none

/-- The method `Nodestore::forgeGeometry`; the inner `none` is `NULL`. -/
def Nodestore.forgeGeometry (f : GeometryFactory) (s : Nodestore)
    (nodes : List osm_object_id_t) (t : time_t) (looksLikePolygon : Bool) :
    Option (Option Geometry) :=
  match s.forgeCoordinates nodes t [] with
  | none => none
  | some c => some (forgeFromCoordinates f c looksLikePolygon)

/-! ## Minor times -/

/-- The loop `for(it = lower; it != upper; it++) push_back(it->first)`: `rest`
holds the entries from position `it` on. -/
def timemap.walk : timemap → Nat → Nat → List time_t → Option (List time_t)
  | [], it, upper, minor_times => if it = upper then some minor_times else none
  | e :: rest, it, upper, minor_times =>
    if it = upper then some minor_times
    else timemap.walk rest (it + 1) upper (minor_times ++ [e.1])

/-- The loop of `calculateMinorTimes` over the way nodes. -/
def Nodestore.collectMinorTimes (s : Nodestore) :
    List osm_object_id_t → time_t → time_t → List time_t → Option (List time_t)
  | [], _, _, minor_times => some minor_times
  | id :: rest, from_, to_, minor_times =>
    match nodemap.find s.m_nodemap id with
    | none => Nodestore.collectMinorTimes s rest from_ to_ minor_times
    | some tmap =>
      let lower := timemap.lower_bound tmap from_
      let upper := if to_ = 0 then tmap.length else timemap.upper_bound tmap to_
      match timemap.walk (tmap.drop lower) lower upper minor_times with
      | none => none
      | some minor_times => Nodestore.collectMinorTimes s rest from_ to_ minor_times

/-- The call `std::sort(begin, end)` on a vector of `time_t`. -/
def std_sort (v : List time_t) : List time_t := v.insertionSort (· ≤ ·)

/-- The scan of `std::unique` behind the element `last` kept most recently: an
element equal to `last` is skipped, any other element is kept and becomes
`last`. -/
def uniqueAfter (last : time_t) : List time_t → List time_t
  | [] => []
  | b :: rest => if last = b then uniqueAfter last rest else b :: uniqueAfter b rest

/-- The elements `std::unique` moves to the front: the first of every run of
equal neighbours. -/
def uniqueKept : List time_t → List time_t
  | [] => []
  | a :: rest => a :: uniqueAfter a rest

/-- The vector after the call `std::unique(begin, end)` whose returned iterator
is discarded: the kept elements are at the front, the positions behind them are
never written and the size is unchanged. -/
def std_unique (v : List time_t) : List time_t :=
  uniqueKept v ++ v.drop (uniqueKept v).length

/-- The method `Nodestore::calculateMinorTimes` with three arguments. -/
def Nodestore.calculateMinorTimes (s : Nodestore) (nodes : List osm_object_id_t)
    (from_ to_ : time_t) : Option (List time_t) :=
  match s.collectMinorTimes nodes from_ to_ [] with
  | none => none
  | some minor_times => some (std_unique (std_sort minor_times))

/-- The overload `Nodestore::calculateMinorTimes` with two arguments. -/
def Nodestore.calculateMinorTimes₂ (s : Nodestore) (nodes : List osm_object_id_t)
    (from_ : time_t) : Option (List time_t) :=
  s.calculateMinorTimes nodes from_ 0

/-! ## Streams of `record` calls -/

/-- The arguments of one call of `record`. -/
structure RecordCall where
  id : osm_object_id_t
  v : osm_version_t
  t : time_t
  lon : Double
  lat : Double
deriving DecidableEq, Repr

/-- The `Nodeinfo` that `record` builds from its arguments (`{lon, lat}`). -/
def RecordCall.info (c : RecordCall) : Nodeinfo := ⟨c.lon, c.lat⟩

/-- Apply a sequence of `record` calls, first call first. -/
def Nodestore.recordAll (s : Nodestore) (calls : List RecordCall) : Nodestore :=
  calls.foldl (fun s c => s.record c.id c.v c.t c.lon c.lat) s

/-- The store built from a fresh one by a sequence of `record` calls. -/
def Nodestore.build (storeerrors : Bool) (calls : List RecordCall) : Nodestore :=
  (Nodestore.new storeerrors).recordAll calls

/-- The first call in the stream that records node `id` at timestamp `t`. -/
def firstRecorded (calls : List RecordCall) (id : osm_object_id_t) (t : time_t) :
    Option RecordCall :=
  calls.find? (fun c => decide (c.id = id) && decide (c.t = t))

/-! ## The scenario of the specification -/

/-- The double `10.0`. -/
def d10 : Double := ⟨0x4024000000000000⟩

/-- The double `11.0`. -/
def d11 : Double := ⟨0x4026000000000000⟩

/-- The double `12.0`. -/
def d12 : Double := ⟨0x4028000000000000⟩

/-- The double `20.0`. -/
def d20 : Double := ⟨0x4034000000000000⟩

/-- The double `21.0`. -/
def d21 : Double := ⟨0x4035000000000000⟩

/-- The double `22.0`. -/
def d22 : Double := ⟨0x4036000000000000⟩

/-- Node 1 at t=100 (lon 10, lat 20) and t=200 (lon 11, lat 21), node 2 at
t=150 (lon 12, lat 22). -/
def scenario : List RecordCall :=
  [⟨1, 1, 100, d10, d20⟩, ⟨1, 2, 200, d11, d21⟩, ⟨2, 1, 150, d12, d22⟩]

/-- Three nodes recorded once each at t=100: node 1 at (10, 20), node 2 at
(11, 21) and node 3 at (12, 20). -/
def triangle : List RecordCall :=
  [⟨1, 1, 100, d10, d20⟩, ⟨2, 1, 100, d11, d21⟩, ⟨3, 1, 100, d12, d20⟩]

/-- A geometry factory that rejects no coordinate sequence. -/
def acceptingFactory : GeometryFactory := ⟨fun _ => false, fun _ => false⟩

/-- A geometry factory that throws on every ring and on no line string. -/
def ringRejectingFactory : GeometryFactory := ⟨fun _ => true, fun _ => false⟩

/-! ## Auxiliary notions used in the statements and proofs -/

/-- Whether the reference `id` resolves at time `t`: `lookup` sets `found`. -/
def Nodestore.resolves (s : Nodestore) (t : time_t) (id : osm_object_id_t) : Bool :=
  match s.lookup id t with
  | some (_, found) => found
  | none => false

/-- The coordinate a reference contributes: the looked-up position when
`found` is set, nothing otherwise. -/
def Nodestore.coordinateOf (s : Nodestore) (t : time_t) (id : osm_object_id_t) :
    Option Coordinate :=
  match s.lookup id t with
  | some (info, true) => some (Coordinate.mk info.lat info.lon DoubleNotANumber)
  | _ => none

/-- The coordinates of the references that resolve, in the order of the list. -/
def Nodestore.resolved (s : Nodestore) (t : time_t) (nodes : List osm_object_id_t) :
    List Coordinate :=
  nodes.filterMap (s.coordinateOf t)

/-- The history of node `id`: the timemap `m_nodemap` holds for it, empty when
there is none. -/
def Nodestore.history (s : Nodestore) (id : osm_object_id_t) : timemap :=
  (nodemap.find s.m_nodemap id).getD []

/-- The keys of a timemap are strictly ascending. -/
def timemap.ordered (tm : timemap) : Prop := tm.Pairwise (fun a b => a.1 < b.1)

/-- The entry `lookup` dereferences: position `upper_bound(t)`, stepped back by
one unless it is `begin()`. -/
def timemap.select (tm : timemap) (t : time_t) : Option (time_t × Nodeinfo) :=
  tm[if timemap.upper_bound tm t = 0 then timemap.upper_bound tm t
    else timemap.upper_bound tm t - 1]?

/-- The upper end of the walk of `calculateMinorTimes`:
`to == 0 ? tmap->end() : tmap->upper_bound(to)`. -/
def timemap.upperEnd (tm : timemap) (to_ : time_t) : Nat :=
  if to_ = 0 then tm.length else timemap.upper_bound tm to_

/-- The keys at the positions from `lower_bound(from)` up to the upper end. -/
def timemap.range (tm : timemap) (from_ to_ : time_t) : List time_t :=
  ((tm.drop (timemap.lower_bound tm from_)).take
    (timemap.upperEnd tm to_ - timemap.lower_bound tm from_)).map Prod.fst

/-- The timestamps one way node contributes to the minor times. -/
def Nodestore.minorRange (s : Nodestore) (from_ to_ : time_t) (id : osm_object_id_t) :
    List time_t :=
  match nodemap.find s.m_nodemap id with
  | none => []
  | some tm => timemap.range tm from_ to_

/-- The walk over the history of `id` starts at or before its upper end. -/
def Nodestore.ranged (s : Nodestore) (from_ to_ : time_t) (id : osm_object_id_t) : Prop :=
  ∀ tm, nodemap.find s.m_nodemap id = some tm →
    timemap.lower_bound tm from_ ≤ timemap.upperEnd tm to_

/-- Every timemap in the node map is non-empty and in ascending key order. -/
def Nodestore.wellFormed (s : Nodestore) : Prop :=
  ∀ id tm, nodemap.find s.m_nodemap id = some tm → tm ≠ [] ∧ timemap.ordered tm

/-! ## Lemmas on the node map -/

theorem nodemap.find_insert (m : nodemap) (id id' : osm_object_id_t) (tm : timemap)
    (h : nodemap.find m id = none) :
    nodemap.find (nodemap.insert m id tm) id' =
      if id = id' then some tm else nodemap.find m id' := by
  induction m with
  | nil => simp [nodemap.insert, nodemap.find]
  | cons e rest ih =>
    obtain ⟨k, v⟩ := e
    simp only [nodemap.find] at h
    by_cases hk : k = id
    · simp [hk] at h
    · simp only [hk, if_false] at h
      simp only [nodemap.insert]
      by_cases h1 : id < k
      · simp only [h1, if_true, nodemap.find]
      · have h2 : k < id := lt_of_le_of_ne (not_lt.mp h1) hk
        simp only [h1, if_false, h2, if_true, nodemap.find, ih h]
        by_cases h3 : k = id'
        · have : ¬ id = id' := fun h4 => hk (h3.trans h4.symm)
          simp [h3, this]
        · simp [h3]

theorem nodemap.find_writeThrough (m : nodemap) (id id' : osm_object_id_t)
    (f : timemap → timemap) :
    nodemap.find (nodemap.writeThrough m id f) id' =
      if id = id' then (nodemap.find m id).map f else nodemap.find m id' := by
  induction m with
  | nil => simp [nodemap.writeThrough, nodemap.find]
  | cons e rest ih =>
    obtain ⟨k, v⟩ := e
    simp only [nodemap.writeThrough]
    by_cases hk : k = id
    · subst hk
      by_cases h : k = id' <;> simp [nodemap.find, h]
    · simp only [hk, if_false, nodemap.find, ih]
      by_cases h : id = id'
      · subst h
        simp [hk]
      · simp [h]

theorem nodemap.writeThrough_eq_self (m : nodemap) (id : osm_object_id_t)
    (f : timemap → timemap) (h : ∀ tm, nodemap.find m id = some tm → f tm = tm) :
    nodemap.writeThrough m id f = m := by
  induction m with
  | nil => rfl
  | cons e rest ih =>
    obtain ⟨k, v⟩ := e
    simp only [nodemap.writeThrough]
    by_cases hk : k = id
    · have := h v (by simp [nodemap.find, hk])
      simp [hk, this]
    · simp only [hk, if_false]
      rw [ih]
      intro tm htm
      exact h tm (by simpa [nodemap.find, hk] using htm)

theorem Nodestore.find_record (s : Nodestore) (id id' : osm_object_id_t)
    (v : osm_version_t) (t : time_t) (lon lat : Double) :
    nodemap.find (s.record id v t lon lat).m_nodemap id' =
      if id = id' then some (timemap.insert (s.history id) t ⟨lon, lat⟩)
      else nodemap.find s.m_nodemap id' := by
  unfold Nodestore.record Nodestore.history
  cases h : nodemap.find s.m_nodemap id with
  | none =>
    simp only [nodemap.find_writeThrough, nodemap.find_insert _ _ _ _ h]
    by_cases h1 : id = id' <;> simp [h1]
  | some tm =>
    simp only [nodemap.find_writeThrough, h]
    by_cases h1 : id = id' <;> simp [h1]

theorem Nodestore.history_record (s : Nodestore) (id id' : osm_object_id_t)
    (v : osm_version_t) (t : time_t) (lon lat : Double) :
    (s.record id v t lon lat).history id' =
      if id = id' then timemap.insert (s.history id) t ⟨lon, lat⟩ else s.history id' := by
  rw [Nodestore.history, Nodestore.find_record]
  by_cases h : id = id' <;> simp [h, Nodestore.history]

theorem Nodestore.storeerrors_record (s : Nodestore) (id : osm_object_id_t)
    (v : osm_version_t) (t : time_t) (lon lat : Double) :
    (s.record id v t lon lat).m_storeerrors = s.m_storeerrors := by
  unfold Nodestore.record
  cases nodemap.find s.m_nodemap id <;> rfl

theorem timemap.insert_ne_nil (tm : timemap) (t : time_t) (info : Nodeinfo) :
    timemap.insert tm t info ≠ [] := by
  cases tm with
  | nil => simp [timemap.insert]
  | cons e rest =>
    obtain ⟨k, v⟩ := e
    simp only [timemap.insert]
    split_ifs <;> simp

theorem timemap.mem_insert (tm : timemap) (t : time_t) (info : Nodeinfo)
    (h : timemap.ordered tm) (e : time_t × Nodeinfo) :
    e ∈ timemap.insert tm t info ↔ e ∈ tm ∨ (e = (t, info) ∧ ∀ e' ∈ tm, e'.1 ≠ t) := by
  induction tm with
  | nil => simp [timemap.insert]
  | cons a rest ih =>
    obtain ⟨k, v⟩ := a
    have hr : timemap.ordered rest := (List.pairwise_cons.mp h).2
    have hk : ∀ e' ∈ rest, k < e'.1 := (List.pairwise_cons.mp h).1
    simp only [timemap.insert]
    by_cases h1 : t < k
    · simp only [h1, if_true, List.mem_cons]
      constructor
      · rintro (h2 | h2 | h2)
        · refine Or.inr ⟨h2, ?_⟩
          intro e' he'
          rcases he' with he' | he'
          · subst he'; exact ne_of_gt h1
          · exact ne_of_gt (lt_trans h1 (hk e' he'))
        · exact Or.inl (Or.inl h2)
        · exact Or.inl (Or.inr h2)
      · rintro ((h2 | h2) | ⟨h2, -⟩)
        · exact Or.inr (Or.inl h2)
        · exact Or.inr (Or.inr h2)
        · exact Or.inl h2
    · by_cases h2 : k < t
      · simp only [h1, if_false, h2, if_true, List.mem_cons, ih hr]
        constructor
        · rintro (h3 | h3 | ⟨h3, h4⟩)
          · exact Or.inl (Or.inl h3)
          · exact Or.inl (Or.inr h3)
          · refine Or.inr ⟨h3, ?_⟩
            intro e' he'
            rcases he' with he' | he'
            · subst he'; exact ne_of_lt h2
            · exact h4 e' he'
        · rintro ((h3 | h3) | ⟨h3, h4⟩)
          · exact Or.inl h3
          · exact Or.inr (Or.inl h3)
          · exact Or.inr (Or.inr ⟨h3, fun e' he' => h4 e' (Or.inr he')⟩)
      · simp only [h1, if_false, h2, List.mem_cons]
        have hkt : k = t := le_antisymm (not_lt.mp h1) (not_lt.mp h2)
        constructor
        · intro h3; exact Or.inl h3
        · rintro (h3 | ⟨-, h4⟩)
          · exact h3
          · exact absurd hkt (h4 (k, v) (Or.inl rfl))

theorem timemap.ordered_insert (tm : timemap) (t : time_t) (info : Nodeinfo)
    (h : timemap.ordered tm) : timemap.ordered (timemap.insert tm t info) := by
  induction tm with
  | nil => simp [timemap.insert, timemap.ordered]
  | cons a rest ih =>
    obtain ⟨k, v⟩ := a
    have hr : timemap.ordered rest := (List.pairwise_cons.mp h).2
    have hk : ∀ e' ∈ rest, k < e'.1 := (List.pairwise_cons.mp h).1
    simp only [timemap.insert]
    by_cases h1 : t < k
    · simp only [h1, if_true]
      refine List.pairwise_cons.mpr ⟨?_, h⟩
      intro e' he'
      rcases List.mem_cons.mp he' with he' | he'
      · subst he'; exact h1
      · exact lt_trans h1 (hk e' he')
    · by_cases h2 : k < t
      · simp only [h1, if_false, h2, if_true]
        refine List.pairwise_cons.mpr ⟨?_, ih hr⟩
        intro e' he'
        rcases (timemap.mem_insert rest t info hr e').mp he' with he' | ⟨he', -⟩
        · exact hk e' he'
        · subst he'; exact h2
      · simpa only [h1, if_false, h2] using h

theorem timemap.insert_eq_self (tm : timemap) (t : time_t) (info : Nodeinfo)
    (h : timemap.ordered tm) (hmem : ∃ e ∈ tm, e.1 = t) :
    timemap.insert tm t info = tm := by
  induction tm with
  | nil => simp at hmem
  | cons a rest ih =>
    obtain ⟨k, v⟩ := a
    have hr : timemap.ordered rest := (List.pairwise_cons.mp h).2
    have hk : ∀ e' ∈ rest, k < e'.1 := (List.pairwise_cons.mp h).1
    obtain ⟨e, he, het⟩ := hmem
    simp only [timemap.insert]
    rcases List.mem_cons.mp he with he | he
    · subst he
      simp at het
      subst het
      simp
    · have h1 : ¬ t < k := by
        have := hk e he
        rw [het] at this
        exact not_lt.mpr (le_of_lt this)
      by_cases h2 : k < t
      · simp only [h1, if_false, h2, if_true, ih hr ⟨e, he, het⟩]
      · simp only [h1, if_false, h2]

/-! ## The invariant of stores built by `record` -/

theorem Nodestore.wellFormed_new (se : Bool) : (Nodestore.new se).wellFormed := by
  intro id tm h
  simp [Nodestore.new, nodemap.find] at h

theorem Nodestore.ordered_history (s : Nodestore) (h : s.wellFormed)
    (id : osm_object_id_t) : timemap.ordered (s.history id) := by
  unfold Nodestore.history
  cases hf : nodemap.find s.m_nodemap id with
  | none => simp [timemap.ordered]
  | some tm => exact (h id tm hf).2

theorem Nodestore.wellFormed_record (s : Nodestore) (h : s.wellFormed)
    (id : osm_object_id_t) (v : osm_version_t) (t : time_t) (lon lat : Double) :
    (s.record id v t lon lat).wellFormed := by
  intro id' tm hf
  rw [Nodestore.find_record] at hf
  by_cases h1 : id = id'
  · simp only [h1, if_true, Option.some.injEq] at hf
    subst hf
    refine ⟨timemap.insert_ne_nil _ _ _, timemap.ordered_insert _ _ _ ?_⟩
    exact Nodestore.ordered_history s h id'
  · simp only [h1, if_false] at hf
    exact h id' tm hf

theorem Nodestore.recordAll_concat (s : Nodestore) (calls : List RecordCall)
    (c : RecordCall) :
    s.recordAll (calls ++ [c]) = (s.recordAll calls).record c.id c.v c.t c.lon c.lat := by
  simp [Nodestore.recordAll]

theorem Nodestore.build_concat (se : Bool) (calls : List RecordCall) (c : RecordCall) :
    Nodestore.build se (calls ++ [c]) =
      (Nodestore.build se calls).record c.id c.v c.t c.lon c.lat := by
  simp [Nodestore.build, Nodestore.recordAll_concat]

theorem Nodestore.wellFormed_build (se : Bool) (calls : List RecordCall) :
    (Nodestore.build se calls).wellFormed := by
  induction calls using List.reverseRecOn with
  | nil => exact Nodestore.wellFormed_new se
  | append_singleton l c ih =>
    rw [Nodestore.build_concat]
    exact Nodestore.wellFormed_record _ ih _ _ _ _ _

theorem firstRecorded_concat (calls : List RecordCall) (c : RecordCall)
    (id : osm_object_id_t) (t : time_t) :
    firstRecorded (calls ++ [c]) id t =
      (firstRecorded calls id t).or (if c.id = id ∧ c.t = t then some c else none) := by
  unfold firstRecorded
  rw [List.find?_append]
  congr 1
  by_cases h : c.id = id ∧ c.t = t
  · simp [h, List.find?]
  · rw [if_neg h]
    have : (decide (c.id = id) && decide (c.t = t)) = false := by
      simpa using h
    simp [List.find?, this]

theorem firstRecorded_some (calls : List RecordCall) (c : RecordCall)
    (id : osm_object_id_t) (t : time_t) (h : firstRecorded calls id t = some c) :
    c ∈ calls ∧ c.id = id ∧ c.t = t := by
  unfold firstRecorded at h
  have h1 := List.mem_of_find?_eq_some h
  have h2 := List.find?_some h
  simp at h2
  exact ⟨h1, h2.1, h2.2⟩

theorem firstRecorded_isSome (calls : List RecordCall) (c : RecordCall) (hc : c ∈ calls) :
    ∃ c', firstRecorded calls c.id c.t = some c' := by
  unfold firstRecorded
  cases h : calls.find? (fun c' => decide (c'.id = c.id) && decide (c'.t = c.t)) with
  | some c' => exact ⟨c', rfl⟩
  | none =>
    have := List.find?_eq_none.mp h c hc
    simp at this

theorem Nodestore.mem_history_build (se : Bool) (calls : List RecordCall)
    (id : osm_object_id_t) (ts : time_t) (info : Nodeinfo) :
    (ts, info) ∈ (Nodestore.build se calls).history id ↔
      ∃ c, firstRecorded calls id ts = some c ∧ c.info = info := by
  induction calls using List.reverseRecOn generalizing ts info with
  | nil => simp [Nodestore.build, Nodestore.recordAll, Nodestore.new, Nodestore.history,
      nodemap.find, firstRecorded]
  | append_singleton l c ih =>
    rw [Nodestore.build_concat, Nodestore.history_record, firstRecorded_concat]
    by_cases h1 : c.id = id
    · subst h1
      simp only [if_true, true_and]
      rw [timemap.mem_insert _ _ _ (Nodestore.ordered_history _
        (Nodestore.wellFormed_build se l) _), ih]
      cases hf : firstRecorded l c.id ts with
      | some c1 =>
        simp only [Option.or_some, Option.some.injEq, exists_eq_left', false_or]
        constructor
        · rintro (h2 | ⟨h2, h3⟩)
          · exact h2
          · exfalso
            have hts : ts = c.t := (Prod.mk.inj h2).1
            have hm : (ts, c1.info) ∈ (Nodestore.build se l).history c.id :=
              (ih ts c1.info).mpr ⟨c1, hf, rfl⟩
            exact h3 _ hm hts
        · intro h2; exact Or.inl h2
      | none =>
        simp only [Option.none_or]
        constructor
        · rintro (⟨c1, h2, -⟩ | ⟨h2, -⟩)
          · exact Option.noConfusion h2
          · have hts : ts = c.t := (Prod.mk.inj h2).1
            have hi : info = ⟨c.lon, c.lat⟩ := (Prod.mk.inj h2).2
            exact ⟨c, by simp [hts], by simp [RecordCall.info, hi]⟩
        · rintro ⟨c2, h2, h3⟩
          by_cases h4 : c.t = ts
          · simp only [h4, if_true, Option.some.injEq] at h2
            subst h2
            subst h4
            refine Or.inr ⟨by simp [← h3, RecordCall.info], ?_⟩
            intro e' he' hk
            obtain ⟨c3, hc3, -⟩ := (ih e'.1 e'.2).mp he'
            rw [hk, hf] at hc3
            exact Option.noConfusion hc3
          · simp [h4] at h2
    · simp only [h1, if_false, false_and, Option.or_none]
      exact ih ts info
      
theorem Nodestore.find_build_eq_none (se : Bool) (calls : List RecordCall)
    (id : osm_object_id_t) :
    nodemap.find (Nodestore.build se calls).m_nodemap id = none ↔
      ∀ c ∈ calls, c.id ≠ id := by
  induction calls using List.reverseRecOn with
  | nil => simp [Nodestore.build, Nodestore.recordAll, Nodestore.new, nodemap.find]
  | append_singleton l c ih =>
    rw [Nodestore.build_concat, Nodestore.find_record]
    by_cases h1 : c.id = id
    · simp only [h1, if_true]
      constructor
      · intro h2; exact Option.noConfusion h2
      · intro h2; exact absurd h1 (h2 c (by simp))
    · simp only [h1, if_false, ih]
      constructor
      · intro h2 c' hc'
        rcases List.mem_append.mp hc' with h3 | h3
        · exact h2 c' h3
        · simp at h3; subst h3; exact h1
      · intro h2 c' hc'
        exact h2 c' (List.mem_append.mpr (Or.inl hc'))

theorem Nodestore.history_of_find (s : Nodestore) (id : osm_object_id_t) (tm : timemap)
    (h : nodemap.find s.m_nodemap id = some tm) : s.history id = tm := by
  simp [Nodestore.history, h]

theorem Nodestore.find_build_of_mem (se : Bool) (calls : List RecordCall)
    (c : RecordCall) (hc : c ∈ calls) :
    nodemap.find (Nodestore.build se calls).m_nodemap c.id =
      some ((Nodestore.build se calls).history c.id) := by
  cases h : nodemap.find (Nodestore.build se calls).m_nodemap c.id with
  | none => exact absurd rfl ((Nodestore.find_build_eq_none se calls c.id).mp h c hc)
  | some tm => rw [Nodestore.history_of_find _ _ _ h]

theorem Nodestore.storeerrors_build (se : Bool) (calls : List RecordCall) :
    (Nodestore.build se calls).m_storeerrors = se := by
  induction calls using List.reverseRecOn with
  | nil => rfl
  | append_singleton l c ih => rw [Nodestore.build_concat, Nodestore.storeerrors_record, ih]

/-! ## The entry `lookup` selects -/

theorem Nodestore.lookup_of_find (s : Nodestore) (id : osm_object_id_t) (t : time_t)
    (tm : timemap) (h : nodemap.find s.m_nodemap id = some tm) :
    s.lookup id t = (timemap.select tm t).map (fun e => (e.2, true)) := by
  unfold Nodestore.lookup timemap.select
  simp only [h]
  cases tm[if timemap.upper_bound tm t = 0 then timemap.upper_bound tm t
    else timemap.upper_bound tm t - 1]? <;> rfl

theorem Nodestore.lookup_of_find_none (s : Nodestore) (id : osm_object_id_t) (t : time_t)
    (h : nodemap.find s.m_nodemap id = none) :
    s.lookup id t = some (⟨Double.zero, Double.zero⟩, false) := by
  unfold Nodestore.lookup
  simp only [h]

theorem timemap.select_cons (k : time_t) (v : Nodeinfo) (rest : timemap) (t : time_t) :
    timemap.select ((k, v) :: rest) t =
      if t < k then some (k, v)
      else if timemap.upper_bound rest t = 0 then some (k, v)
      else timemap.select rest t := by
  unfold timemap.select
  simp only [timemap.upper_bound]
  by_cases h1 : t < k
  · simp [h1]
  · simp only [h1, if_false]
    by_cases h2 : timemap.upper_bound rest t = 0
    · simp [h2]
    · simp only [h2, if_false]
      obtain ⟨n, hn⟩ := Nat.exists_eq_succ_of_ne_zero h2
      simp [hn]

theorem timemap.upper_bound_eq_zero (tm : timemap) (t : time_t) (h : timemap.ordered tm)
    (h0 : timemap.upper_bound tm t = 0) : ∀ e ∈ tm, t < e.1 := by
  cases tm with
  | nil => simp
  | cons a rest =>
    obtain ⟨k, v⟩ := a
    have hk : ∀ e' ∈ rest, k < e'.1 := (List.pairwise_cons.mp h).1
    simp only [timemap.upper_bound] at h0
    by_cases h1 : t < k
    · intro e he
      rcases List.mem_cons.mp he with he | he
      · subst he; exact h1
      · exact lt_trans h1 (hk e he)
    · simp [h1] at h0

theorem timemap.select_mem (tm : timemap) (t : time_t) (e : time_t × Nodeinfo)
    (h : timemap.select tm t = some e) : e ∈ tm := by
  unfold timemap.select at h
  exact List.getElem?_mem h

theorem timemap.select_isSome (tm : timemap) (t : time_t) (h : tm ≠ []) :
    ∃ e, timemap.select tm t = some e := by
  induction tm with
  | nil => exact absurd rfl h
  | cons a rest ih =>
    obtain ⟨k, v⟩ := a
    rw [timemap.select_cons]
    by_cases h1 : t < k
    · exact ⟨(k, v), by simp [h1]⟩
    · by_cases h2 : timemap.upper_bound rest t = 0
      · exact ⟨(k, v), by simp [h1, h2]⟩
      · have hr : rest ≠ [] := by
          intro h3; subst h3; simp [timemap.upper_bound] at h2
        obtain ⟨e, he⟩ := ih hr
        exact ⟨e, by simp [h1, h2, he]⟩

/-- As-of selection: when some key is at most `t`, the selected entry has the
greatest key that is at most `t`. -/
theorem timemap.select_asof (tm : timemap) (t : time_t) (e : time_t × Nodeinfo)
    (h : timemap.ordered tm) (hs : timemap.select tm t = some e)
    (hex : ∃ e' ∈ tm, e'.1 ≤ t) : e.1 ≤ t ∧ ∀ e' ∈ tm, e'.1 ≤ t → e'.1 ≤ e.1 := by
  induction tm with
  | nil => simp at hex
  | cons a rest ih =>
    obtain ⟨k, v⟩ := a
    have hr : timemap.ordered rest := (List.pairwise_cons.mp h).2
    have hk : ∀ e' ∈ rest, k < e'.1 := (List.pairwise_cons.mp h).1
    rw [timemap.select_cons] at hs
    by_cases h1 : t < k
    · exfalso
      obtain ⟨e', he', hle⟩ := hex
      rcases List.mem_cons.mp he' with he' | he'
      · subst he'; exact absurd h1 (not_lt.mpr hle)
      · exact absurd (lt_trans h1 (hk e' he')) (not_lt.mpr hle)
    · simp only [h1, if_false] at hs
      by_cases h2 : timemap.upper_bound rest t = 0
      · simp only [h2, if_true, Option.some.injEq] at hs
        subst hs
        refine ⟨not_lt.mp h1, ?_⟩
        intro e' he' hle
        rcases List.mem_cons.mp he' with he' | he'
        · subst he'; exact le_refl _
        · exact absurd (timemap.upper_bound_eq_zero rest t hr h2 e' he') (not_lt.mpr hle)
      · simp only [h2, if_false] at hs
        have hex' : ∃ e' ∈ rest, e'.1 ≤ t := by
          cases rest with
          | nil => simp [timemap.upper_bound] at h2
          | cons b rest' =>
            obtain ⟨k', v'⟩ := b
            refine ⟨(k', v'), by simp, ?_⟩
            simp only [timemap.upper_bound] at h2
            by_cases h3 : t < k'
            · simp [h3] at h2
            · exact not_lt.mp h3
        obtain ⟨h4, h5⟩ := ih hr hs hex'
        refine ⟨h4, ?_⟩
        intro e' he' hle
        rcases List.mem_cons.mp he' with he' | he'
        · subst he'
          exact le_of_lt (hk e (timemap.select_mem rest t e hs))
        · exact h5 e' he' hle

/-- Fallback: when every key is greater than `t`, the selected entry has the
least key. -/
theorem timemap.select_fallback (tm : timemap) (t : time_t) (e : time_t × Nodeinfo)
    (h : timemap.ordered tm) (hs : timemap.select tm t = some e)
    (hall : ∀ e' ∈ tm, t < e'.1) : ∀ e' ∈ tm, e.1 ≤ e'.1 := by
  cases tm with
  | nil => simp
  | cons a rest =>
    obtain ⟨k, v⟩ := a
    have hk : ∀ e' ∈ rest, k < e'.1 := (List.pairwise_cons.mp h).1
    rw [timemap.select_cons] at hs
    have h1 : t < k := hall (k, v) (by simp)
    simp only [h1, if_true, Option.some.injEq] at hs
    subst hs
    intro e' he'
    rcases List.mem_cons.mp he' with he' | he'
    · subst he'; exact le_refl _
    · exact le_of_lt (hk e' he')

/-! ## Lookup in built stores -/

theorem Nodestore.mem_history_of_mem (se : Bool) (calls : List RecordCall)
    (c : RecordCall) (hc : c ∈ calls) :
    ∃ c1, firstRecorded calls c.id c.t = some c1 ∧
      (c.t, c1.info) ∈ (Nodestore.build se calls).history c.id := by
  obtain ⟨c1, h1⟩ := firstRecorded_isSome calls c hc
  exact ⟨c1, h1, (Nodestore.mem_history_build se calls c.id c.t c1.info).mpr ⟨c1, h1, rfl⟩⟩

theorem Nodestore.mem_calls_of_mem_history (se : Bool) (calls : List RecordCall)
    (id : osm_object_id_t) (e : time_t × Nodeinfo)
    (he : e ∈ (Nodestore.build se calls).history id) :
    ∃ c, firstRecorded calls id e.1 = some c ∧ c ∈ calls ∧ c.id = id ∧ c.t = e.1 ∧
      c.info = e.2 := by
  obtain ⟨c, h1, h2⟩ := (Nodestore.mem_history_build se calls id e.1 e.2).mp he
  obtain ⟨h3, h4, h5⟩ := firstRecorded_some calls c id e.1 h1
  exact ⟨c, h1, h3, h4, h5, h2⟩

theorem Nodestore.lookup_build (se : Bool) (calls : List RecordCall)
    (id : osm_object_id_t) (t : time_t) (h : ∃ c0 ∈ calls, c0.id = id) :
    ∃ e, timemap.select ((Nodestore.build se calls).history id) t = some e ∧
      (Nodestore.build se calls).lookup id t = some (e.2, true) := by
  obtain ⟨c0, hc0, hid⟩ := h
  subst hid
  have hf := Nodestore.find_build_of_mem se calls c0 hc0
  have hne := ((Nodestore.wellFormed_build se calls) _ _ hf).1
  obtain ⟨e, he⟩ := timemap.select_isSome _ t hne
  exact ⟨e, he, by rw [Nodestore.lookup_of_find _ _ _ _ hf, he]; rfl⟩

/-! ## Claims on `lookup` and `record` -/

/-- C1: in a store built by any sequence of `record` calls, for an id that has
a recorded version at or before the query time `t`, `lookup(id, t)` sets
`found = true` and returns the position stored under the greatest recorded
timestamp that is at most `t` (the position of the first call recorded for
that timestamp); when `t` is at or after every recorded timestamp of the id
this is the latest version. -/
theorem lookup_as_of (se : Bool) (calls : List RecordCall) (id : osm_object_id_t)
    (t : time_t) (h : ∃ c0 ∈ calls, c0.id = id ∧ c0.t ≤ t) :
    ∃ c, firstRecorded calls id c.t = some c ∧ c.t ≤ t ∧
      (∀ c' ∈ calls, c'.id = id → c'.t ≤ t → c'.t ≤ c.t) ∧
      ((∀ c' ∈ calls, c'.id = id → c'.t ≤ t) → ∀ c' ∈ calls, c'.id = id → c'.t ≤ c.t) ∧
      (Nodestore.build se calls).lookup id t = some (⟨c.lon, c.lat⟩, true) := by
  obtain ⟨c0, hc0, hid, hle⟩ := h
  obtain ⟨e, hsel, hlook⟩ := Nodestore.lookup_build se calls id t ⟨c0, hc0, hid⟩
  have hord := Nodestore.ordered_history _ (Nodestore.wellFormed_build se calls) id
  have hmem := timemap.select_mem _ _ _ hsel
  obtain ⟨c, hfirst, -, -, hct, hinfo⟩ := Nodestore.mem_calls_of_mem_history se calls id e hmem
  have hex : ∃ e' ∈ (Nodestore.build se calls).history id, e'.1 ≤ t := by
    obtain ⟨c1, -, h1⟩ := Nodestore.mem_history_of_mem se calls c0 hc0
    rw [hid] at h1
    exact ⟨_, h1, hle⟩
  obtain ⟨h1, h2⟩ := timemap.select_asof _ t e hord hsel hex
  have hmax : ∀ c' ∈ calls, c'.id = id → c'.t ≤ t → c'.t ≤ c.t := by
    intro c' hc' hid' hle'
    obtain ⟨c1, -, h3⟩ := Nodestore.mem_history_of_mem se calls c' hc'
    rw [hid'] at h3
    rw [hct]
    exact h2 _ h3 hle'
  refine ⟨c, by rw [hct]; exact hfirst, by rw [hct]; exact h1, hmax, ?_, ?_⟩
  · intro hall c' hc' hid'
    exact hmax c' hc' hid' (hall c' hc' hid')
  · rw [hlook, ← hinfo]; rfl

theorem lookup_as_of_witness :
    ∃ c, firstRecorded scenario 1 c.t = some c ∧ c.t ≤ 120 ∧
      (∀ c' ∈ scenario, c'.id = 1 → c'.t ≤ 120 → c'.t ≤ c.t) ∧
      ((∀ c' ∈ scenario, c'.id = 1 → c'.t ≤ 120) → ∀ c' ∈ scenario, c'.id = 1 → c'.t ≤ c.t) ∧
      (Nodestore.build false scenario).lookup 1 120 = some (⟨c.lon, c.lat⟩, true) :=
  lookup_as_of false scenario 1 120 ⟨⟨1, 1, 100, d10, d20⟩, by decide, by decide, by decide⟩

/-- C2: for an id with at least one recorded version and a query time `t`
strictly before every recorded timestamp of that id, `lookup(id, t)` sets
`found = true` and returns the position of the earliest recorded version. -/
theorem lookup_before_history (se : Bool) (calls : List RecordCall)
    (id : osm_object_id_t) (t : time_t) (h1 : ∃ c0 ∈ calls, c0.id = id)
    (h2 : ∀ c' ∈ calls, c'.id = id → t < c'.t) :
    ∃ c, firstRecorded calls id c.t = some c ∧
      (∀ c' ∈ calls, c'.id = id → c.t ≤ c'.t) ∧
      (Nodestore.build se calls).lookup id t = some (⟨c.lon, c.lat⟩, true) := by
  obtain ⟨e, hsel, hlook⟩ := Nodestore.lookup_build se calls id t h1
  have hord := Nodestore.ordered_history _ (Nodestore.wellFormed_build se calls) id
  have hmem := timemap.select_mem _ _ _ hsel
  obtain ⟨c, hfirst, -, -, hct, hinfo⟩ := Nodestore.mem_calls_of_mem_history se calls id e hmem
  have hall : ∀ e' ∈ (Nodestore.build se calls).history id, t < e'.1 := by
    intro e' he'
    obtain ⟨c', -, hc', hid', ht', -⟩ := Nodestore.mem_calls_of_mem_history se calls id e' he'
    rw [← ht']
    exact h2 c' hc' hid'
  have hmin := timemap.select_fallback _ t e hord hsel hall
  refine ⟨c, by rw [hct]; exact hfirst, ?_, by rw [hlook, ← hinfo]; rfl⟩
  intro c' hc' hid'
  obtain ⟨c1, -, h3⟩ := Nodestore.mem_history_of_mem se calls c' hc'
  rw [hid'] at h3
  rw [hct]
  exact hmin _ h3

theorem lookup_before_history_witness :
    ∃ c, firstRecorded scenario 2 c.t = some c ∧
      (∀ c' ∈ scenario, c'.id = 2 → c.t ≤ c'.t) ∧
      (Nodestore.build true scenario).lookup 2 120 = some (⟨c.lon, c.lat⟩, true) :=
  lookup_before_history true scenario 2 120 ⟨⟨2, 1, 150, d12, d22⟩, by decide, by decide⟩
    (by decide)

/-- C3: in a store built by `record` calls, `lookup(id, t)` sets
`found = false` exactly when no `record` call was made for `id`; it then
returns the zero placeholder `{0, 0}` for every `t`, and otherwise it sets
`found = true`. -/
theorem lookup_not_found_iff (se : Bool) (calls : List RecordCall)
    (id : osm_object_id_t) (t : time_t) :
    ((∃ p, (Nodestore.build se calls).lookup id t = some (p, false)) ↔
        ∀ c ∈ calls, c.id ≠ id) ∧
      ((∀ c ∈ calls, c.id ≠ id) →
        (Nodestore.build se calls).lookup id t =
          some (⟨Double.zero, Double.zero⟩, false)) ∧
      ((∃ c ∈ calls, c.id = id) →
        ∃ p, (Nodestore.build se calls).lookup id t = some (p, true)) := by
  have hnone : (∀ c ∈ calls, c.id ≠ id) →
      (Nodestore.build se calls).lookup id t = some (⟨Double.zero, Double.zero⟩, false) :=
    fun h => Nodestore.lookup_of_find_none _ _ _ ((Nodestore.find_build_eq_none se calls id).mpr h)
  have hsome : (∃ c ∈ calls, c.id = id) →
      ∃ p, (Nodestore.build se calls).lookup id t = some (p, true) := by
    intro h
    obtain ⟨e, -, hlook⟩ := Nodestore.lookup_build se calls id t h
    exact ⟨e.2, hlook⟩
  refine ⟨⟨?_, fun h => ⟨_, hnone h⟩⟩, hnone, hsome⟩
  rintro ⟨p, hp⟩ c hc hid
  obtain ⟨q, hq⟩ := hsome ⟨c, hc, hid⟩
  rw [hq] at hp
  simp at hp

theorem lookup_not_found_iff_witness :
    (Nodestore.build false scenario).lookup 3 120 =
      some (⟨Double.zero, Double.zero⟩, false) :=
  (lookup_not_found_iff false scenario 3 120).2.1 (by decide)

theorem Nodestore.record_eq_self (s : Nodestore) (h : s.wellFormed)
    (id : osm_object_id_t) (v : osm_version_t) (t : time_t) (lon lat : Double)
    (hmem : ∃ e ∈ s.history id, e.1 = t) : s.record id v t lon lat = s := by
  unfold Nodestore.record
  cases hf : nodemap.find s.m_nodemap id with
  | none =>
    simp [Nodestore.history, hf] at hmem
  | some tm =>
    have hh := Nodestore.history_of_find s id tm hf
    rw [hh] at hmem
    have : nodemap.writeThrough s.m_nodemap id
        (fun tmap => timemap.insert tmap t ⟨lon, lat⟩) = s.m_nodemap := by
      apply nodemap.writeThrough_eq_self
      intro tm' htm'
      rw [hf] at htm'
      cases htm'
      exact timemap.insert_eq_self tm t _ (h id tm hf).2 hmem
    simp only [this]

/-- C4: first write wins. When the stream of `record` calls already holds a
version at `(id, t)`, a further `record(id, v', t, lon', lat')` leaves the store
unchanged; `lookup(id, t)` afterwards returns the position of the first call
recorded for `(id, t)`, and when the dropped position differs from every
recorded position of `id`, no `lookup(id, q)` returns it. -/
theorem record_first_write_wins (se : Bool) (calls : List RecordCall)
    (id : osm_object_id_t) (v' : osm_version_t) (t : time_t) (lon' lat' : Double)
    (h : ∃ c0 ∈ calls, c0.id = id ∧ c0.t = t) :
    (Nodestore.build se calls).record id v' t lon' lat' = Nodestore.build se calls ∧
      (∃ c1, firstRecorded calls id t = some c1 ∧
        ((Nodestore.build se calls).record id v' t lon' lat').lookup id t =
          some (⟨c1.lon, c1.lat⟩, true)) ∧
      ((∀ c ∈ calls, c.id = id → (⟨c.lon, c.lat⟩ : Nodeinfo) ≠ ⟨lon', lat'⟩) →
        ∀ q p found, ((Nodestore.build se calls).record id v' t lon' lat').lookup id q =
          some (p, found) → p ≠ ⟨lon', lat'⟩) := by
  obtain ⟨c0, hc0, hid, ht⟩ := h
  have hwf := Nodestore.wellFormed_build se calls
  have hord := Nodestore.ordered_history _ hwf id
  have hmem : ∃ e ∈ (Nodestore.build se calls).history id, e.1 = t := by
    obtain ⟨c1, -, h1⟩ := Nodestore.mem_history_of_mem se calls c0 hc0
    rw [hid, ht] at h1
    exact ⟨_, h1, rfl⟩
  have heq := Nodestore.record_eq_self _ hwf id v' t lon' lat' hmem
  rw [heq]
  refine ⟨rfl, ?_, ?_⟩
  · obtain ⟨e, hsel, hlook⟩ := Nodestore.lookup_build se calls id t ⟨c0, hc0, hid⟩
    obtain ⟨e0, he0, hk0⟩ := hmem
    have hle : e.1 ≤ t ∧ ∀ e' ∈ (Nodestore.build se calls).history id, e'.1 ≤ t → e'.1 ≤ e.1 :=
      timemap.select_asof _ t e hord hsel ⟨e0, he0, le_of_eq hk0⟩
    have hkey : e.1 = t := le_antisymm hle.1 (by rw [← hk0]; exact hle.2 e0 he0 (le_of_eq hk0))
    obtain ⟨c1, hfirst, -, -, -, hinfo⟩ :=
      Nodestore.mem_calls_of_mem_history se calls id e (timemap.select_mem _ _ _ hsel)
    rw [hkey] at hfirst
    exact ⟨c1, hfirst, by rw [hlook, ← hinfo]; rfl⟩
  · intro hdiff q p found hq
    obtain ⟨e, hsel, hlook⟩ := Nodestore.lookup_build se calls id q ⟨c0, hc0, hid⟩
    rw [hlook] at hq
    obtain ⟨c1, -, hc1, hid1, -, hinfo⟩ :=
      Nodestore.mem_calls_of_mem_history se calls id e (timemap.select_mem _ _ _ hsel)
    have hp : p = e.2 := by
      have := Option.some.inj hq
      exact (Prod.mk.inj this).1.symm
    rw [hp, ← hinfo]
    exact hdiff c1 hc1 hid1

theorem record_first_write_wins_witness :
    (Nodestore.build false scenario).record 1 7 100 d12 d22 = Nodestore.build false scenario ∧
      (∃ c1, firstRecorded scenario 1 100 = some c1 ∧
        ((Nodestore.build false scenario).record 1 7 100 d12 d22).lookup 1 100 =
          some (⟨c1.lon, c1.lat⟩, true)) ∧
      ((∀ c ∈ scenario, c.id = 1 → (⟨c.lon, c.lat⟩ : Nodeinfo) ≠ ⟨d12, d22⟩) →
        ∀ q p found, ((Nodestore.build false scenario).record 1 7 100 d12 d22).lookup 1 q =
          some (p, found) → p ≠ ⟨d12, d22⟩) :=
  record_first_write_wins false scenario 1 7 100 d12 d22
    ⟨⟨1, 1, 100, d10, d20⟩, by decide, by decide, by decide⟩

/-! ## The walk of `calculateMinorTimes` -/

theorem timemap.walk_eq_some_iff (rest : timemap) (it upper : Nat)
    (acc r : List time_t) :
    timemap.walk rest it upper acc = some r ↔
      it ≤ upper ∧ upper ≤ it + rest.length ∧
        r = acc ++ (rest.take (upper - it)).map Prod.fst := by
  induction rest generalizing it acc with
  | nil =>
    simp only [timemap.walk, List.length_nil, List.take_nil, List.map_nil, List.append_nil]
    by_cases h : it = upper
    · subst h
      simp [eq_comm]
    · simp only [h, if_false]
      constructor
      · intro h1; exact Option.noConfusion h1
      · rintro ⟨h1, h2, -⟩; exact absurd (by omega) h
  | cons e rest ih =>
    simp only [timemap.walk]
    by_cases h : it = upper
    · subst h
      simp [eq_comm]
    · simp only [h, if_false, ih, List.length_cons]
      constructor
      · rintro ⟨h1, h2, h3⟩
        refine ⟨by omega, by omega, ?_⟩
        have : upper - it = (upper - (it + 1)) + 1 := by omega
        rw [h3, this]
        simp
      · rintro ⟨h1, h2, h3⟩
        refine ⟨by omega, by omega, ?_⟩
        have : upper - it = (upper - (it + 1)) + 1 := by omega
        rw [h3, this]
        simp

theorem timemap.upper_bound_le_length (tm : timemap) (t : time_t) :
    timemap.upper_bound tm t ≤ tm.length := by
  induction tm with
  | nil => simp [timemap.upper_bound]
  | cons e rest ih =>
    obtain ⟨k, v⟩ := e
    simp only [timemap.upper_bound, List.length_cons]
    split_ifs <;> omega

theorem timemap.lower_bound_le_length (tm : timemap) (t : time_t) :
    timemap.lower_bound tm t ≤ tm.length := by
  induction tm with
  | nil => simp [timemap.lower_bound]
  | cons e rest ih =>
    obtain ⟨k, v⟩ := e
    simp only [timemap.lower_bound, List.length_cons]
    split_ifs <;> omega

theorem timemap.upperEnd_le_length (tm : timemap) (t : time_t) :
    timemap.upperEnd tm t ≤ tm.length := by
  unfold timemap.upperEnd
  split_ifs
  · exact le_refl _
  · exact timemap.upper_bound_le_length tm t

theorem timemap.walk_range (tm : timemap) (from_ to_ : time_t) (acc r : List time_t) :
    timemap.walk (tm.drop (timemap.lower_bound tm from_)) (timemap.lower_bound tm from_)
        (timemap.upperEnd tm to_) acc = some r ↔
      timemap.lower_bound tm from_ ≤ timemap.upperEnd tm to_ ∧
        r = acc ++ timemap.range tm from_ to_ := by
  rw [timemap.walk_eq_some_iff]
  have h1 := timemap.upperEnd_le_length tm to_
  have h2 := timemap.lower_bound_le_length tm from_
  have h3 : (tm.drop (timemap.lower_bound tm from_)).length =
      tm.length - timemap.lower_bound tm from_ := List.length_drop _ _
  unfold timemap.range
  constructor
  · rintro ⟨h4, -, h5⟩; exact ⟨h4, h5⟩
  · rintro ⟨h4, h5⟩; exact ⟨h4, by omega, h5⟩

theorem Nodestore.collectMinorTimes_eq_some_iff (s : Nodestore)
    (nodes : List osm_object_id_t) (from_ to_ : time_t) (acc r : List time_t) :
    s.collectMinorTimes nodes from_ to_ acc = some r ↔
      (∀ id ∈ nodes, s.ranged from_ to_ id) ∧
        r = acc ++ nodes.flatMap (s.minorRange from_ to_) := by
  induction nodes generalizing acc with
  | nil => simp [Nodestore.collectMinorTimes, eq_comm]
  | cons id rest ih =>
    simp only [Nodestore.collectMinorTimes, List.mem_cons, forall_eq_or_imp,
      List.flatMap_cons]
    cases hf : nodemap.find s.m_nodemap id with
    | none =>
      simp only [ih, Nodestore.minorRange, hf, List.nil_append]
      have : s.ranged from_ to_ id := by
        intro tm htm; rw [hf] at htm; exact Option.noConfusion htm
      simp [this]
    | some tm =>
      have hup : (if to_ = 0 then tm.length else timemap.upper_bound tm to_) =
          timemap.upperEnd tm to_ := rfl
      simp only [hup]
      have hr : s.ranged from_ to_ id ↔
          timemap.lower_bound tm from_ ≤ timemap.upperEnd tm to_ := by
        constructor
        · intro h; exact h tm hf
        · intro h tm' htm'; rw [hf] at htm'; cases htm'; exact h
      cases hw : timemap.walk (tm.drop (timemap.lower_bound tm from_))
          (timemap.lower_bound tm from_) (timemap.upperEnd tm to_) acc with
      | none =>
        constructor
        · intro h; exact Option.noConfusion h
        rintro ⟨⟨h1, -⟩, -⟩
        have := (timemap.walk_range tm from_ to_ acc (acc ++ timemap.range tm from_ to_)).mpr
          ⟨hr.mp h1, rfl⟩
        rw [hw] at this
        exact Option.noConfusion this
      | some acc' =>
        obtain ⟨h1, h2⟩ := (timemap.walk_range tm from_ to_ acc acc').mp hw
        simp only [ih, Nodestore.minorRange, hf, h2, List.append_assoc]
        simp [hr, h1]

/-! ## Sorting and `std::unique` -/

theorem mem_std_sort (v : List time_t) (ts : time_t) : ts ∈ std_sort v ↔ ts ∈ v := by
  unfold std_sort
  exact (List.perm_insertionSort _ v).mem_iff

theorem mem_uniqueAfter (last : time_t) (l : List time_t) (ts : time_t) :
    ts ∈ uniqueAfter last l ∨ ts = last ↔ ts ∈ l ∨ ts = last := by
  induction l generalizing last with
  | nil => simp [uniqueAfter]
  | cons b rest ih =>
    simp only [uniqueAfter]
    by_cases h : last = b
    · subst h
      simp only [if_true, List.mem_cons]
      rw [ih]
      tauto
    · simp only [h, if_false, List.mem_cons]
      have := ih b
      tauto

theorem uniqueAfter_subset (last : time_t) (l : List time_t) (ts : time_t)
    (h : ts ∈ uniqueAfter last l) : ts ∈ l := by
  induction l generalizing last with
  | nil => simp [uniqueAfter] at h
  | cons b rest ih =>
    simp only [uniqueAfter] at h
    by_cases h1 : last = b
    · simp only [h1, if_true] at h
      exact List.mem_cons_of_mem _ (ih b h)
    · simp only [h1, if_false, List.mem_cons] at h
      rcases h with h | h
      · simp [h]
      · exact List.mem_cons_of_mem _ (ih b h)

theorem mem_uniqueKept (l : List time_t) (ts : time_t) : ts ∈ uniqueKept l ↔ ts ∈ l := by
  cases l with
  | nil => simp [uniqueKept]
  | cons a rest =>
    simp only [uniqueKept, List.mem_cons]
    have := mem_uniqueAfter a rest ts
    tauto

theorem mem_std_unique (l : List time_t) (ts : time_t) : ts ∈ std_unique l ↔ ts ∈ l := by
  unfold std_unique
  rw [List.mem_append, mem_uniqueKept]
  constructor
  · rintro (h | h)
    · exact h
    · exact List.mem_of_mem_drop h
  · intro h; exact Or.inl h

theorem Nodestore.calculateMinorTimes_eq_some_iff (s : Nodestore)
    (nodes : List osm_object_id_t) (from_ to_ : time_t) (r : List time_t) :
    s.calculateMinorTimes nodes from_ to_ = some r ↔
      (∀ id ∈ nodes, s.ranged from_ to_ id) ∧
        r = std_unique (std_sort (nodes.flatMap (s.minorRange from_ to_))) := by
  unfold Nodestore.calculateMinorTimes
  cases h : s.collectMinorTimes nodes from_ to_ [] with
  | none =>
    constructor
    · intro h1; exact Option.noConfusion h1
    · rintro ⟨h1, -⟩
      have := (Nodestore.collectMinorTimes_eq_some_iff s nodes from_ to_ [] _).mpr ⟨h1, rfl⟩
      rw [h] at this
      exact Option.noConfusion this
  | some v =>
    obtain ⟨h1, h2⟩ := (Nodestore.collectMinorTimes_eq_some_iff s nodes from_ to_ [] v).mp h
    simp only [List.nil_append] at h2
    subst h2
    simp only [Option.some.injEq]
    constructor
    · intro h3; exact ⟨h1, h3.symm⟩
    · rintro ⟨-, h3⟩; exact h3.symm

theorem Nodestore.mem_calculateMinorTimes (s : Nodestore)
    (nodes : List osm_object_id_t) (from_ to_ : time_t) (r : List time_t)
    (h : s.calculateMinorTimes nodes from_ to_ = some r) (ts : time_t) :
    ts ∈ r ↔ ∃ id ∈ nodes, ts ∈ s.minorRange from_ to_ id := by
  obtain ⟨-, h2⟩ := (Nodestore.calculateMinorTimes_eq_some_iff s nodes from_ to_ r).mp h
  rw [h2, mem_std_unique, mem_std_sort, List.mem_flatMap]

/-! ## Well-formed ranges -/

theorem timemap.lower_bound_le_upper_bound (tm : timemap) (from_ to_ : time_t)
    (h : from_ ≤ to_) : timemap.lower_bound tm from_ ≤ timemap.upper_bound tm to_ := by
  induction tm with
  | nil => simp [timemap.lower_bound]
  | cons e rest ih =>
    obtain ⟨k, v⟩ := e
    simp only [timemap.lower_bound, timemap.upper_bound]
    by_cases h1 : k < from_
    · have h2 : ¬ to_ < k := not_lt.mpr (le_trans (le_of_lt h1) h)
      simp only [h1, if_true, h2, if_false]
      omega
    · simp [h1]

theorem timemap.upper_bound_mono (tm : timemap) (t t' : time_t) (h : t ≤ t') :
    timemap.upper_bound tm t ≤ timemap.upper_bound tm t' := by
  induction tm with
  | nil => simp [timemap.upper_bound]
  | cons e rest ih =>
    obtain ⟨k, v⟩ := e
    simp only [timemap.upper_bound]
    by_cases h1 : t < k
    · simp [h1]
    · have h2 : ¬ t' < k := not_lt.mpr (le_trans (not_lt.mp h1) h)
      simp only [h1, if_false, h2]
      omega

theorem timemap.upperEnd_mono (tm : timemap) (t t' : time_t) (h : t ≤ t')
    (h0 : t ≠ 0 ∨ t' = 0) : timemap.upperEnd tm t ≤ timemap.upperEnd tm t' := by
  unfold timemap.upperEnd
  by_cases h1 : t' = 0
  · simp only [h1, if_true]
    split_ifs
    · exact le_refl _
    · exact timemap.upper_bound_le_length tm t
  · have h2 : t ≠ 0 := by
      rcases h0 with h0 | h0
      · exact h0
      · exact absurd h0 h1
    simp only [h1, if_false, h2]
    exact timemap.upper_bound_mono tm t t' h

theorem timemap.range_subset (tm : timemap) (from_ t t' : time_t)
    (h : timemap.upperEnd tm t ≤ timemap.upperEnd tm t') (ts : time_t)
    (hts : ts ∈ timemap.range tm from_ t) : ts ∈ timemap.range tm from_ t' := by
  unfold timemap.range at *
  obtain ⟨e, he, hk⟩ := List.mem_map.mp hts
  refine List.mem_map.mpr ⟨e, ?_, hk⟩
  exact List.take_subset_take_left _ (by omega) he

theorem Nodestore.ranged_of_le (s : Nodestore) (from_ to_ : time_t)
    (id : osm_object_id_t) (h : from_ ≤ to_ ∨ to_ = 0) : s.ranged from_ to_ id := by
  intro tm _
  unfold timemap.upperEnd
  by_cases h1 : to_ = 0
  · simp only [h1, if_true]
    exact timemap.lower_bound_le_length tm from_
  · simp only [h1, if_false]
    rcases h with h | h
    · exact timemap.lower_bound_le_upper_bound tm from_ to_ h
    · exact absurd h h1

theorem Nodestore.calculateMinorTimes_isSome (s : Nodestore)
    (nodes : List osm_object_id_t) (from_ to_ : time_t) (h : from_ ≤ to_ ∨ to_ = 0) :
    ∃ r, s.calculateMinorTimes nodes from_ to_ = some r :=
  ⟨_, (Nodestore.calculateMinorTimes_eq_some_iff s nodes from_ to_ _).mpr
    ⟨fun id _ => Nodestore.ranged_of_le s from_ to_ id h, rfl⟩⟩

/-! ## Claims on `calculateMinorTimes` -/

/-- C5: at a way that repeats a node reference the code returns a vector with
repeated values. The scenario store holds node 1 at 100 and 200 and node 2 at
150; for the closed way `[1, 2, 1]` and the window `(0, 300)` the returned
vector is `[100, 150, 200, 200, 200]`, which is neither strictly ascending nor
free of duplicates: `std::unique` moves the distinct values to the front, and
the vector is returned without erasing what lies behind them. -/
theorem calculateMinorTimes_keeps_duplicates :
    (Nodestore.build false scenario).calculateMinorTimes [1, 2, 1] 0 300 =
        some [100, 150, 200, 200, 200] ∧
      ¬ List.Pairwise (fun a b : time_t => a < b) [100, 150, 200, 200, 200] ∧
      ¬ List.Nodup ([100, 150, 200, 200, 200] : List time_t) := by
  refine ⟨by decide, by decide, by decide⟩

/-- C6, as stated, fails at the value `0` of `to`: node 1 has versions at 100
and 200; with `to = 0` (upper end unset) both are returned, with `to' = 5 ≥ 0`
none is. -/
theorem calculateMinorTimes_upper_zero_not_monotonic :
    (0 : time_t) ≤ 5 ∧
      (Nodestore.build false scenario).calculateMinorTimes [1] 0 0 = some [100, 200] ∧
      (Nodestore.build false scenario).calculateMinorTimes [1] 0 5 = some [] ∧
      ¬ (∀ ts ∈ ([100, 200] : List time_t), ts ∈ ([] : List time_t)) := by
  refine ⟨by decide, by decide, by decide, by decide⟩

/-- C6, amended: for `to ≤ to'` with `to ≠ 0` or `to' = 0` (the value `0`
means that the upper end is unset), whenever `calculateMinorTimes(nodes, from,
to)` returns, which it does at least when `from ≤ to`, the call
`calculateMinorTimes(nodes, from, to')` returns as well and contains every
timestamp of the former; negative values of `to` and `to'` are included. -/
theorem calculateMinorTimes_upper_monotonic (s : Nodestore)
    (nodes : List osm_object_id_t) (from_ to_ to' : time_t) (h : to_ ≤ to')
    (h0 : to_ ≠ 0 ∨ to' = 0) :
    (from_ ≤ to_ → ∃ r, s.calculateMinorTimes nodes from_ to_ = some r) ∧
      ∀ r, s.calculateMinorTimes nodes from_ to_ = some r →
        ∃ r', s.calculateMinorTimes nodes from_ to' = some r' ∧ ∀ ts ∈ r, ts ∈ r' := by
  refine ⟨fun hle => Nodestore.calculateMinorTimes_isSome s nodes from_ to_ (Or.inl hle), ?_⟩
  intro r hr
  obtain ⟨h1, -⟩ := (Nodestore.calculateMinorTimes_eq_some_iff s nodes from_ to_ r).mp hr
  have hup : ∀ tm : timemap, timemap.upperEnd tm to_ ≤ timemap.upperEnd tm to' :=
    fun tm => timemap.upperEnd_mono tm to_ to' h h0
  have h2 : ∀ id ∈ nodes, s.ranged from_ to' id := by
    intro id hid tm htm
    exact le_trans (h1 id hid tm htm) (hup tm)
  have hr' := (Nodestore.calculateMinorTimes_eq_some_iff s nodes from_ to' _).mpr ⟨h2, rfl⟩
  refine ⟨_, hr', ?_⟩
  intro ts hts
  rw [Nodestore.mem_calculateMinorTimes s nodes from_ to' _ hr']
  obtain ⟨id, hid, hmem⟩ := (Nodestore.mem_calculateMinorTimes s nodes from_ to_ r hr ts).mp hts
  refine ⟨id, hid, ?_⟩
  unfold Nodestore.minorRange at *
  cases hf : nodemap.find s.m_nodemap id with
  | none => simp [hf] at hmem
  | some tm =>
    simp only [hf] at hmem ⊢
    exact timemap.range_subset tm from_ to_ to' (hup tm) ts hmem

theorem calculateMinorTimes_upper_monotonic_witness :
    ∃ r r', (Nodestore.build false scenario).calculateMinorTimes [1, 2] 0 150 = some r ∧
      (Nodestore.build false scenario).calculateMinorTimes [1, 2] 0 300 = some r' ∧
      ∀ ts ∈ r, ts ∈ r' := by
  obtain ⟨h1, h2⟩ := calculateMinorTimes_upper_monotonic (Nodestore.build false scenario)
    [1, 2] 0 150 300 (by decide) (Or.inl (by decide))
  obtain ⟨r, hr⟩ := h1 (by decide)
  obtain ⟨r', hr', hsub⟩ := h2 r hr
  exact ⟨r, r', hr, hr', hsub⟩

/-! ## The entries inside a window -/

theorem timemap.mem_take_upper_bound (tm : timemap) (to_ : time_t)
    (h : timemap.ordered tm) (e : time_t × Nodeinfo) :
    e ∈ tm.take (timemap.upper_bound tm to_) ↔ e ∈ tm ∧ e.1 ≤ to_ := by
  induction tm with
  | nil => simp
  | cons a rest ih =>
    obtain ⟨k, v⟩ := a
    have hr : timemap.ordered rest := (List.pairwise_cons.mp h).2
    have hk : ∀ e' ∈ rest, k < e'.1 := (List.pairwise_cons.mp h).1
    simp only [timemap.upper_bound]
    by_cases h1 : to_ < k
    · simp only [h1, if_true, List.take_zero, List.not_mem_nil, false_iff, not_and, not_le]
      intro he
      rcases List.mem_cons.mp he with he | he
      · subst he; exact h1
      · exact lt_trans h1 (hk e he)
    · simp only [h1, if_false, List.take_succ_cons, List.mem_cons, ih hr]
      constructor
      · rintro (h2 | ⟨h2, h3⟩)
        · subst h2; exact ⟨Or.inl rfl, not_lt.mp h1⟩
        · exact ⟨Or.inr h2, h3⟩
      · rintro ⟨h2 | h2, h3⟩
        · exact Or.inl h2
        · exact Or.inr ⟨h2, h3⟩

theorem timemap.mem_drop_lower_bound (tm : timemap) (from_ : time_t)
    (h : timemap.ordered tm) (e : time_t × Nodeinfo) :
    e ∈ tm.drop (timemap.lower_bound tm from_) ↔ e ∈ tm ∧ from_ ≤ e.1 := by
  induction tm with
  | nil => simp
  | cons a rest ih =>
    obtain ⟨k, v⟩ := a
    have hr : timemap.ordered rest := (List.pairwise_cons.mp h).2
    have hk : ∀ e' ∈ rest, k < e'.1 := (List.pairwise_cons.mp h).1
    simp only [timemap.lower_bound]
    by_cases h1 : k < from_
    · simp only [h1, if_true, List.drop_succ_cons, ih hr, List.mem_cons]
      constructor
      · rintro ⟨h2, h3⟩; exact ⟨Or.inr h2, h3⟩
      · rintro ⟨h2 | h2, h3⟩
        · subst h2; exact absurd h1 (not_lt.mpr h3)
        · exact ⟨h2, h3⟩
    · simp only [h1, if_false, List.drop_zero, iff_self_and]
      intro he
      rcases List.mem_cons.mp he with he | he
      · subst he; exact not_lt.mp h1
      · exact le_trans (not_lt.mp h1) (le_of_lt (hk e he))

theorem timemap.mem_window (tm : timemap) (from_ to_ : time_t)
    (h : timemap.ordered tm) (hle : from_ ≤ to_) (e : time_t × Nodeinfo) :
    e ∈ (tm.drop (timemap.lower_bound tm from_)).take
        (timemap.upper_bound tm to_ - timemap.lower_bound tm from_) ↔
      e ∈ tm ∧ from_ ≤ e.1 ∧ e.1 ≤ to_ := by
  induction tm with
  | nil => simp
  | cons a rest ih =>
    obtain ⟨k, v⟩ := a
    have hr : timemap.ordered rest := (List.pairwise_cons.mp h).2
    have hk : ∀ e' ∈ rest, k < e'.1 := (List.pairwise_cons.mp h).1
    by_cases h1 : k < from_
    · have h2 : ¬ to_ < k := not_lt.mpr (le_trans (le_of_lt h1) hle)
      simp only [timemap.lower_bound, timemap.upper_bound, h1, if_true, h2, if_false,
        List.drop_succ_cons, Nat.add_sub_add_right, ih hr, List.mem_cons]
      constructor
      · rintro ⟨h3, h4⟩; exact ⟨Or.inr h3, h4⟩
      · rintro ⟨h3 | h3, h4⟩
        · subst h3; exact absurd h1 (not_lt.mpr h4.1)
        · exact ⟨h3, h4⟩
    · have hlb : timemap.lower_bound ((k, v) :: rest) from_ = 0 := by
        simp [timemap.lower_bound, h1]
      rw [hlb, List.drop_zero, Nat.sub_zero, timemap.mem_take_upper_bound _ _ h]
      constructor
      · rintro ⟨h3, h4⟩
        refine ⟨h3, ?_, h4⟩
        rcases List.mem_cons.mp h3 with h3 | h3
        · subst h3; exact not_lt.mp h1
        · exact le_trans (not_lt.mp h1) (le_of_lt (hk e h3))
      · rintro ⟨h3, -, h4⟩; exact ⟨h3, h4⟩

theorem timemap.mem_range_bounded (tm : timemap) (from_ to_ : time_t)
    (h : timemap.ordered tm) (hle : from_ ≤ to_) (h0 : to_ ≠ 0) (ts : time_t) :
    ts ∈ timemap.range tm from_ to_ ↔
      (∃ e ∈ tm, e.1 = ts) ∧ from_ ≤ ts ∧ ts ≤ to_ := by
  unfold timemap.range timemap.upperEnd
  simp only [h0, if_false, List.mem_map]
  constructor
  · rintro ⟨e, he, hk⟩
    obtain ⟨h1, h2, h3⟩ := (timemap.mem_window tm from_ to_ h hle e).mp he
    subst hk
    exact ⟨⟨e, h1, rfl⟩, h2, h3⟩
  · rintro ⟨⟨e, he, hk⟩, h2, h3⟩
    subst hk
    exact ⟨e, (timemap.mem_window tm from_ to_ h hle e).mpr ⟨he, h2, h3⟩, rfl⟩

theorem timemap.mem_range_open (tm : timemap) (from_ : time_t)
    (h : timemap.ordered tm) (ts : time_t) :
    ts ∈ timemap.range tm from_ 0 ↔ (∃ e ∈ tm, e.1 = ts) ∧ from_ ≤ ts := by
  unfold timemap.range timemap.upperEnd
  have hlen : (tm.drop (timemap.lower_bound tm from_)).length =
      tm.length - timemap.lower_bound tm from_ := List.length_drop _ _
  simp only [if_true, List.mem_map]
  rw [List.take_of_length_le (le_of_eq hlen)]
  constructor
  · rintro ⟨e, he, hk⟩
    obtain ⟨h1, h2⟩ := (timemap.mem_drop_lower_bound tm from_ h e).mp he
    subst hk
    exact ⟨⟨e, h1, rfl⟩, h2⟩
  · rintro ⟨⟨e, he, hk⟩, h2⟩
    subst hk
    exact ⟨e, (timemap.mem_drop_lower_bound tm from_ h e).mpr ⟨he, h2⟩, rfl⟩

theorem Nodestore.minorRange_eq (s : Nodestore) (from_ to_ : time_t)
    (id : osm_object_id_t) :
    s.minorRange from_ to_ id = timemap.range (s.history id) from_ to_ := by
  unfold Nodestore.minorRange Nodestore.history
  cases nodemap.find s.m_nodemap id with
  | none => simp [timemap.range, timemap.lower_bound]
  | some tm => rfl

theorem Nodestore.key_mem_history_build (se : Bool) (calls : List RecordCall)
    (id : osm_object_id_t) (ts : time_t) :
    (∃ e ∈ (Nodestore.build se calls).history id, e.1 = ts) ↔
      ∃ c ∈ calls, c.id = id ∧ c.t = ts := by
  constructor
  · rintro ⟨e, he, hk⟩
    obtain ⟨c, -, hc, hid, ht, -⟩ := Nodestore.mem_calls_of_mem_history se calls id e he
    exact ⟨c, hc, hid, ht.trans hk⟩
  · rintro ⟨c, hc, hid, ht⟩
    obtain ⟨c1, -, h1⟩ := Nodestore.mem_history_of_mem se calls c hc
    rw [hid, ht] at h1
    exact ⟨_, h1, rfl⟩

/-- C7, as stated, fails for windows that end at `0`: with `from = -5 ≤ to = 0`
the version of node 2 at 150 is returned although `150 > to`. -/
theorem calculateMinorTimes_window_ending_at_zero :
    (-5 : time_t) ≤ 0 ∧
      (Nodestore.build false scenario).calculateMinorTimes [2] (-5) 0 = some [150] ∧
      ¬ ((150 : time_t) ∈ [150] ↔
        ∃ c ∈ scenario, c.id ∈ [2] ∧ c.t = 150 ∧ (-5 : time_t) ≤ 150 ∧ (150 : time_t) ≤ 0) := by
  refine ⟨by decide, by decide, by decide⟩

/-- C7, amended: in a store built by `record` calls, for `from ≤ to` with
`to ≠ 0` the call `calculateMinorTimes(nodes, from, to)` returns, and a
timestamp occurs in the result if and only if some node referenced in the list
has a recorded version at it with `from ≤ ts ≤ to`; with the upper end unset
(`to = 0`, which is what the two-argument overload passes) the call returns for
every `from`, and a timestamp occurs if and only if some referenced node has a
recorded version at it with `ts ≥ from`. References to nodes without history
contribute nothing and cause no failure. -/
theorem calculateMinorTimes_membership (se : Bool) (calls : List RecordCall)
    (nodes : List osm_object_id_t) (from_ to_ : time_t) :
    (from_ ≤ to_ → to_ ≠ 0 →
      ∃ r, (Nodestore.build se calls).calculateMinorTimes nodes from_ to_ = some r ∧
        ∀ ts, ts ∈ r ↔
          ∃ c ∈ calls, c.id ∈ nodes ∧ c.t = ts ∧ from_ ≤ ts ∧ ts ≤ to_) ∧
      ∃ r, (Nodestore.build se calls).calculateMinorTimes₂ nodes from_ = some r ∧
        (Nodestore.build se calls).calculateMinorTimes nodes from_ 0 = some r ∧
        ∀ ts, ts ∈ r ↔ ∃ c ∈ calls, c.id ∈ nodes ∧ c.t = ts ∧ from_ ≤ ts := by
  have hord := fun id => Nodestore.ordered_history _ (Nodestore.wellFormed_build se calls) id
  constructor
  · intro hle h0
    obtain ⟨r, hr⟩ := Nodestore.calculateMinorTimes_isSome (Nodestore.build se calls) nodes
      from_ to_ (Or.inl hle)
    refine ⟨r, hr, ?_⟩
    intro ts
    rw [Nodestore.mem_calculateMinorTimes _ nodes from_ to_ r hr]
    constructor
    · rintro ⟨id, hid, hmem⟩
      rw [Nodestore.minorRange_eq, timemap.mem_range_bounded _ _ _ (hord id) hle h0,
        Nodestore.key_mem_history_build] at hmem
      obtain ⟨⟨c, hc, hcid, hct⟩, h1, h2⟩ := hmem
      exact ⟨c, hc, by rw [hcid]; exact hid, hct, h1, h2⟩
    · rintro ⟨c, hc, hcid, hct, h1, h2⟩
      refine ⟨c.id, hcid, ?_⟩
      rw [Nodestore.minorRange_eq, timemap.mem_range_bounded _ _ _ (hord c.id) hle h0,
        Nodestore.key_mem_history_build]
      exact ⟨⟨c, hc, rfl, hct⟩, h1, h2⟩
  · obtain ⟨r, hr⟩ := Nodestore.calculateMinorTimes_isSome (Nodestore.build se calls) nodes
      from_ 0 (Or.inr rfl)
    refine ⟨r, hr, hr, ?_⟩
    intro ts
    rw [Nodestore.mem_calculateMinorTimes _ nodes from_ 0 r hr]
    constructor
    · rintro ⟨id, hid, hmem⟩
      rw [Nodestore.minorRange_eq, timemap.mem_range_open _ _ (hord id),
        Nodestore.key_mem_history_build] at hmem
      obtain ⟨⟨c, hc, hcid, hct⟩, h1⟩ := hmem
      exact ⟨c, hc, by rw [hcid]; exact hid, hct, h1⟩
    · rintro ⟨c, hc, hcid, hct, h1⟩
      refine ⟨c.id, hcid, ?_⟩
      rw [Nodestore.minorRange_eq, timemap.mem_range_open _ _ (hord c.id),
        Nodestore.key_mem_history_build]
      exact ⟨⟨c, hc, rfl, hct⟩, h1⟩

theorem calculateMinorTimes_membership_witness :
    ∃ r, (Nodestore.build false scenario).calculateMinorTimes [1, 2, 7] 120 200 = some r ∧
      ∀ ts, ts ∈ r ↔
        ∃ c ∈ scenario, c.id ∈ [1, 2, 7] ∧ c.t = ts ∧ (120 : time_t) ≤ ts ∧ ts ≤ 200 :=
  (calculateMinorTimes_membership false scenario [1, 2, 7] 120 200).1 (by decide) (by decide)

/-! ## The coordinates `forgeGeometry` collects -/

theorem Nodestore.lookup_congr (s s' : Nodestore) (id : osm_object_id_t) (t : time_t)
    (h : nodemap.find s.m_nodemap id = nodemap.find s'.m_nodemap id) :
    s.lookup id t = s'.lookup id t := by
  unfold Nodestore.lookup
  rw [h]

theorem Nodestore.lookup_isSome (s : Nodestore) (h : s.wellFormed)
    (id : osm_object_id_t) (t : time_t) : ∃ r, s.lookup id t = some r := by
  cases hf : nodemap.find s.m_nodemap id with
  | none => exact ⟨_, Nodestore.lookup_of_find_none s id t hf⟩
  | some tm =>
    obtain ⟨e, he⟩ := timemap.select_isSome tm t (h id tm hf).1
    exact ⟨(e.2, true), by rw [Nodestore.lookup_of_find s id t tm hf, he]; rfl⟩

theorem Nodestore.forgeCoordinates_congr (s s' : Nodestore)
    (nodes : List osm_object_id_t) (t t' : time_t) (c : List Coordinate)
    (h : ∀ id ∈ nodes, s.lookup id t = s'.lookup id t') :
    s.forgeCoordinates nodes t c = s'.forgeCoordinates nodes t' c := by
  induction nodes generalizing c with
  | nil => rfl
  | cons id rest ih =>
    have hrest : ∀ id ∈ rest, s.lookup id t = s'.lookup id t' :=
      fun id' hid' => h id' (List.mem_cons_of_mem _ hid')
    simp only [Nodestore.forgeCoordinates, h id (List.mem_cons_self _ _)]
    cases s'.lookup id t' with
    | none => rfl
    | some p =>
      obtain ⟨info, found⟩ := p
      cases found
      · simpa using ih c hrest
      · simpa using ih _ hrest

theorem Nodestore.forgeCoordinates_eq (s : Nodestore) (h : s.wellFormed)
    (nodes : List osm_object_id_t) (t : time_t) (c : List Coordinate) :
    s.forgeCoordinates nodes t c = some (c ++ s.resolved t nodes) := by
  induction nodes generalizing c with
  | nil => simp [Nodestore.forgeCoordinates, Nodestore.resolved]
  | cons id rest ih =>
    obtain ⟨r, hr⟩ := Nodestore.lookup_isSome s h id t
    obtain ⟨info, found⟩ := r
    simp only [Nodestore.forgeCoordinates, hr, Nodestore.resolved, List.filterMap_cons,
      Nodestore.coordinateOf]
    cases found
    · simpa [Nodestore.resolved] using ih c
    · simp only [Bool.not_true, Bool.false_eq_true, if_false]
      rw [ih]
      simp [Nodestore.resolved]

theorem Nodestore.length_resolved (s : Nodestore) (t : time_t)
    (nodes : List osm_object_id_t) :
    (s.resolved t nodes).length = (nodes.filter (s.resolves t)).length := by
  induction nodes with
  | nil => rfl
  | cons id rest ih =>
    unfold Nodestore.resolved at ih ⊢
    cases hl : s.lookup id t with
    | none =>
      have h1 : s.coordinateOf t id = none := by simp [Nodestore.coordinateOf, hl]
      have h2 : s.resolves t id = false := by simp [Nodestore.resolves, hl]
      simp [List.filterMap_cons, List.filter_cons, h1, h2, ih]
    | some p =>
      obtain ⟨info, found⟩ := p
      cases found
      · have h1 : s.coordinateOf t id = none := by simp [Nodestore.coordinateOf, hl]
        have h2 : s.resolves t id = false := by simp [Nodestore.resolves, hl]
        simp [List.filterMap_cons, List.filter_cons, h1, h2, ih]
      · have h1 : s.coordinateOf t id =
            some (Coordinate.mk info.lat info.lon DoubleNotANumber) := by
          simp [Nodestore.coordinateOf, hl]
        have h2 : s.resolves t id = true := by simp [Nodestore.resolves, hl]
        simp [List.filterMap_cons, List.filter_cons, h1, h2, ih]

theorem Nodestore.forgeGeometry_eq (f : GeometryFactory) (s : Nodestore)
    (h : s.wellFormed) (nodes : List osm_object_id_t) (t : time_t) (hint : Bool) :
    s.forgeGeometry f nodes t hint =
      some (forgeFromCoordinates f (s.resolved t nodes) hint) := by
  unfold Nodestore.forgeGeometry
  rw [Nodestore.forgeCoordinates_eq s h nodes t []]
  rfl

/-! ## Lookups that agree -/

theorem timemap.upper_bound_eq_of_no_key_between (tm : timemap) (t1 t2 : time_t)
    (h : t1 ≤ t2) (hno : ∀ e ∈ tm, ¬ (t1 < e.1 ∧ e.1 ≤ t2)) :
    timemap.upper_bound tm t1 = timemap.upper_bound tm t2 := by
  induction tm with
  | nil => rfl
  | cons a rest ih =>
    obtain ⟨k, v⟩ := a
    have hrest : ∀ e ∈ rest, ¬ (t1 < e.1 ∧ e.1 ≤ t2) :=
      fun e he => hno e (List.mem_cons_of_mem _ he)
    simp only [timemap.upper_bound]
    by_cases h1 : t1 < k
    · have h2 : t2 < k := by
        by_contra h3
        exact hno (k, v) (List.mem_cons_self _ _) ⟨h1, not_lt.mp h3⟩
      simp [h1, h2]
    · have h2 : ¬ t2 < k := not_lt.mpr (le_trans (not_lt.mp h1) h)
      simp [h1, h2, ih hrest]

theorem timemap.select_eq_of_no_key_between (tm : timemap) (t1 t2 : time_t)
    (h : t1 ≤ t2) (hno : ∀ e ∈ tm, ¬ (t1 < e.1 ∧ e.1 ≤ t2)) :
    timemap.select tm t1 = timemap.select tm t2 := by
  unfold timemap.select
  rw [timemap.upper_bound_eq_of_no_key_between tm t1 t2 h hno]

theorem Nodestore.lookup_eq_of_no_key_between (s : Nodestore) (id : osm_object_id_t)
    (t1 t2 : time_t) (h : t1 ≤ t2)
    (hno : ∀ e ∈ s.history id, ¬ (t1 < e.1 ∧ e.1 ≤ t2)) :
    s.lookup id t1 = s.lookup id t2 := by
  cases hf : nodemap.find s.m_nodemap id with
  | none =>
    rw [Nodestore.lookup_of_find_none s id t1 hf, Nodestore.lookup_of_find_none s id t2 hf]
  | some tm =>
    rw [Nodestore.history_of_find s id tm hf] at hno
    rw [Nodestore.lookup_of_find s id t1 tm hf, Nodestore.lookup_of_find s id t2 tm hf,
      timemap.select_eq_of_no_key_between tm t1 t2 h hno]

/-! ## Claims on `forgeGeometry` -/

/-- C8: completeness of the timeline. In a store built by `record` calls, for
`from ≤ t1 ≤ t2` with `t2 ≤ to` or the upper end unset (`to = 0`), the call
`calculateMinorTimes(nodes, from, to)` returns, and if none of the returned
timestamps lies in the half-open interval `(t1, t2]`, then `forgeGeometry`
resolves the same coordinate sequence at `t1` and at `t2` and yields the same
result for every polygon hint. -/
theorem forgeGeometry_constant_between_minor_times (f : GeometryFactory) (se : Bool)
    (calls : List RecordCall) (nodes : List osm_object_id_t) (hint : Bool)
    (from_ to_ t1 t2 : time_t) (h1 : from_ ≤ t1) (h2 : t1 ≤ t2)
    (h3 : t2 ≤ to_ ∨ to_ = 0) :
    ∃ r, (Nodestore.build se calls).calculateMinorTimes nodes from_ to_ = some r ∧
      ((∀ ts ∈ r, ¬ (t1 < ts ∧ ts ≤ t2)) →
        ∃ c, (Nodestore.build se calls).forgeCoordinates nodes t1 [] = some c ∧
          (Nodestore.build se calls).forgeCoordinates nodes t2 [] = some c ∧
          ∃ g, (Nodestore.build se calls).forgeGeometry f nodes t1 hint = some g ∧
            (Nodestore.build se calls).forgeGeometry f nodes t2 hint = some g) := by
  have hwf := Nodestore.wellFormed_build se calls
  have hwin : from_ ≤ to_ ∨ to_ = 0 := by
    rcases h3 with h3 | h3
    · exact Or.inl (le_trans h1 (le_trans h2 h3))
    · exact Or.inr h3
  obtain ⟨r, hr⟩ := Nodestore.calculateMinorTimes_isSome (Nodestore.build se calls) nodes
    from_ to_ hwin
  refine ⟨r, hr, ?_⟩
  intro hno
  have hlook : ∀ id ∈ nodes, (Nodestore.build se calls).lookup id t1 =
      (Nodestore.build se calls).lookup id t2 := by
    intro id hid
    apply Nodestore.lookup_eq_of_no_key_between _ id t1 t2 h2
    intro e he hbetween
    apply hno e.1 _ hbetween
    rw [Nodestore.mem_calculateMinorTimes _ nodes from_ to_ r hr]
    refine ⟨id, hid, ?_⟩
    rw [Nodestore.minorRange_eq]
    have hord := Nodestore.ordered_history _ hwf id
    by_cases h0 : to_ = 0
    · subst h0
      rw [timemap.mem_range_open _ _ hord]
      exact ⟨⟨e, he, rfl⟩, le_trans h1 (le_of_lt hbetween.1)⟩
    · have hle : t2 ≤ to_ := by
        rcases h3 with h3 | h3
        · exact h3
        · exact absurd h3 h0
      rw [timemap.mem_range_bounded _ _ _ hord (le_trans h1 (le_trans h2 hle)) h0]
      exact ⟨⟨e, he, rfl⟩, le_trans h1 (le_of_lt hbetween.1), le_trans hbetween.2 hle⟩
  have hc := Nodestore.forgeCoordinates_congr _ _ nodes t1 t2 [] hlook
  have hc1 := Nodestore.forgeCoordinates_eq _ hwf nodes t1 []
  refine ⟨_, hc1, by rw [← hc]; exact hc1, ?_⟩
  refine ⟨forgeFromCoordinates f ((Nodestore.build se calls).resolved t1 nodes) hint, ?_, ?_⟩
  · exact Nodestore.forgeGeometry_eq f _ hwf nodes t1 hint
  · unfold Nodestore.forgeGeometry
    rw [← hc, hc1]
    rfl

theorem forgeGeometry_constant_between_minor_times_witness :
    ∃ c, (Nodestore.build false scenario).forgeCoordinates [1, 2] 160 [] = some c ∧
      (Nodestore.build false scenario).forgeCoordinates [1, 2] 190 [] = some c ∧
      ∃ g, (Nodestore.build false scenario).forgeGeometry acceptingFactory [1, 2] 160
          true = some g ∧
        (Nodestore.build false scenario).forgeGeometry acceptingFactory [1, 2] 190
          true = some g := by
  obtain ⟨r, hr, himp⟩ := forgeGeometry_constant_between_minor_times acceptingFactory false
    scenario [1, 2] true 0 300 160 190 (by decide) (by decide) (Or.inl (by decide))
  have hval : (Nodestore.build false scenario).calculateMinorTimes [1, 2] 0 300 =
      some [100, 150, 200] := by decide
  rw [hval] at hr
  cases hr
  exact himp (by decide)

/-! ## Recording a later version -/

theorem timemap.exists_le_of_upper_bound_ne_zero (tm : timemap) (t : time_t)
    (h : timemap.upper_bound tm t ≠ 0) : ∃ e ∈ tm, e.1 ≤ t := by
  cases tm with
  | nil => simp [timemap.upper_bound] at h
  | cons a rest =>
    obtain ⟨k, v⟩ := a
    refine ⟨(k, v), List.mem_cons_self _ _, ?_⟩
    simp only [timemap.upper_bound] at h
    by_cases h1 : t < k
    · simp [h1] at h
    · exact not_lt.mp h1

theorem timemap.upper_bound_insert (tm : timemap) (t t' : time_t) (info : Nodeinfo)
    (h : t < t') :
    timemap.upper_bound (timemap.insert tm t' info) t = timemap.upper_bound tm t := by
  induction tm with
  | nil => simp [timemap.insert, timemap.upper_bound, h]
  | cons a rest ih =>
    obtain ⟨k, v⟩ := a
    simp only [timemap.insert]
    by_cases h1 : t' < k
    · have h2 : t < k := lt_trans h h1
      simp [h1, timemap.upper_bound, h, h2]
    · by_cases h2 : k < t'
      · simp [h1, h2, timemap.upper_bound, ih]
      · simp [h1, h2]

theorem timemap.select_insert (tm : timemap) (t t' : time_t) (info : Nodeinfo)
    (h : t < t') (hord : timemap.ordered tm) (hex : ∃ e ∈ tm, e.1 ≤ t') :
    timemap.select (timemap.insert tm t' info) t = timemap.select tm t := by
  induction tm with
  | nil => simp at hex
  | cons a rest ih =>
    obtain ⟨k, v⟩ := a
    have hr : timemap.ordered rest := (List.pairwise_cons.mp hord).2
    have hk : ∀ e' ∈ rest, k < e'.1 := (List.pairwise_cons.mp hord).1
    have h1 : ¬ t' < k := by
      obtain ⟨e, he, hle⟩ := hex
      rcases List.mem_cons.mp he with he | he
      · subst he; exact not_lt.mpr hle
      · exact not_lt.mpr (le_trans (le_of_lt (hk e he)) hle)
    simp only [timemap.insert, h1, if_false]
    by_cases h2 : k < t'
    · simp only [h2, if_true]
      rw [timemap.select_cons, timemap.select_cons, timemap.upper_bound_insert rest t t' info h]
      by_cases h3 : t < k
      · simp [h3]
      · by_cases h4 : timemap.upper_bound rest t = 0
        · simp [h3, h4]
        · simp only [h3, h4, if_false]
          obtain ⟨e, he, hle⟩ := timemap.exists_le_of_upper_bound_ne_zero rest t h4
          exact ih hr ⟨e, he, le_trans hle (le_of_lt h)⟩
    · simp [h2]

theorem Nodestore.lookup_record_later (s : Nodestore) (hwf : s.wellFormed)
    (id id' : osm_object_id_t) (v' : osm_version_t) (t ts' : time_t) (lon' lat' : Double)
    (h : t < ts') (hex : ∃ e ∈ s.history id', e.1 ≤ ts') :
    (s.record id' v' ts' lon' lat').lookup id t = s.lookup id t := by
  by_cases hid : id' = id
  · subst hid
    cases hf : nodemap.find s.m_nodemap id' with
    | none => simp [Nodestore.history, hf] at hex
    | some tm =>
      have hh := Nodestore.history_of_find s id' tm hf
      have hf' := Nodestore.find_record s id' id' v' ts' lon' lat'
      simp only [if_true, hh] at hf'
      rw [Nodestore.lookup_of_find _ _ _ _ hf', Nodestore.lookup_of_find _ _ _ _ hf,
        timemap.select_insert tm t ts' _ h (hwf id' tm hf).2 (by rw [← hh]; exact hex)]
  · apply Nodestore.lookup_congr
    rw [Nodestore.find_record]
    simp [hid]

/-- C9, as stated, fails through the before-history fallback: node 2 has its
only version at 150; at `t = 120` inside the window `(0, 130)` it resolves to
that version, and after one more version of node 2 is recorded at `140 > 130`
it resolves to the new one, so the line through nodes 1 and 2 changes. -/
theorem forgeGeometry_changed_by_later_version :
    (0 : time_t) ≤ 120 ∧ (120 : time_t) ≤ 130 ∧ (130 : time_t) < 140 ∧
      (Nodestore.build false scenario).forgeGeometry acceptingFactory [1, 2] 120 false =
        some (some (Geometry.LineString
          [⟨d10, d20, DoubleNotANumber⟩, ⟨d12, d22, DoubleNotANumber⟩] 900913)) ∧
      ((Nodestore.build false scenario).record 2 2 140 d11 d21).forgeGeometry
          acceptingFactory [1, 2] 120 false =
        some (some (Geometry.LineString
          [⟨d10, d20, DoubleNotANumber⟩, ⟨d11, d21, DoubleNotANumber⟩] 900913)) ∧
      ((Nodestore.build false scenario).record 2 2 140 d11 d21).forgeGeometry
          acceptingFactory [1, 2] 120 false ≠
        (Nodestore.build false scenario).forgeGeometry acceptingFactory [1, 2] 120 false := by
  refine ⟨by decide, by decide, by decide, by decide, by decide, by decide⟩

/-- C9, amended: in a store built by `record` calls, for a time `t ≤ to`,
recording one additional version with a timestamp strictly greater than `to`
for a node that already has a recorded version whose timestamp is not later
than the added one does not change the result of `forgeGeometry(nodes, t,
hint)`, and `forgeGeometry` returns in both stores. -/
theorem forgeGeometry_unchanged_by_later_version (f : GeometryFactory) (se : Bool)
    (calls : List RecordCall) (nodes : List osm_object_id_t) (hint : Bool)
    (to_ t : time_t) (id' : osm_object_id_t) (v' : osm_version_t) (ts' : time_t)
    (lon' lat' : Double) (h1 : t ≤ to_) (h2 : to_ < ts')
    (h3 : ∃ c ∈ calls, c.id = id' ∧ c.t ≤ ts') :
    ∃ g, (Nodestore.build se calls).forgeGeometry f nodes t hint = some g ∧
      ((Nodestore.build se calls).record id' v' ts' lon' lat').forgeGeometry f nodes t hint =
        some g := by
  have hwf := Nodestore.wellFormed_build se calls
  have hex : ∃ e ∈ (Nodestore.build se calls).history id', e.1 ≤ ts' := by
    obtain ⟨c, hc, hid, hle⟩ := h3
    obtain ⟨c1, -, hm⟩ := Nodestore.mem_history_of_mem se calls c hc
    rw [hid] at hm
    exact ⟨_, hm, hle⟩
  have hlt : t < ts' := lt_of_le_of_lt h1 h2
  refine ⟨_, Nodestore.forgeGeometry_eq f _ hwf nodes t hint, ?_⟩
  have hc := Nodestore.forgeCoordinates_congr
    ((Nodestore.build se calls).record id' v' ts' lon' lat') (Nodestore.build se calls)
    nodes t t [] (fun id _ =>
      Nodestore.lookup_record_later _ hwf id id' v' t ts' lon' lat' hlt hex)
  unfold Nodestore.forgeGeometry
  rw [hc, Nodestore.forgeCoordinates_eq _ hwf nodes t []]
  rfl

theorem forgeGeometry_unchanged_by_later_version_witness :
    ∃ g, (Nodestore.build false scenario).forgeGeometry acceptingFactory [1, 2] 120 false =
        some g ∧
      ((Nodestore.build false scenario).record 1 3 400 d12 d22).forgeGeometry
        acceptingFactory [1, 2] 120 false = some g :=
  forgeGeometry_unchanged_by_later_version acceptingFactory false scenario [1, 2] false
    300 120 1 3 400 d12 d22 (by decide) (by decide)
    ⟨⟨1, 1, 100, d10, d20⟩, by decide, by decide, by decide⟩

/-! ## Shape classification -/

theorem forgeFromCoordinates_eq (f : GeometryFactory) (c : List Coordinate) (hint : Bool)
    (front back : Coordinate) (h2 : 2 ≤ c.length) (hf : c.head? = some front)
    (hb : c.getLast? = some back) :
    forgeFromCoordinates f c hint =
      if hint = true ∧ front.equals back = true ∧ 4 ≤ c.length then
        (if f.createPolygonThrows c = true then none else some (Geometry.Polygon c 900913))
      else
        (if f.createLineStringThrows c = true then none
          else some (Geometry.LineString c 900913)) := by
  have hnot : ¬ c.length < 2 := by omega
  unfold forgeFromCoordinates
  simp only [hnot, if_false, hf, hb]
  by_cases hcond : hint = true ∧ front.equals back = true ∧ 4 ≤ c.length
  · have : (hint && front.equals back && decide (c.length ≥ 4)) = true := by
      simp [hcond.1, hcond.2.1, hcond.2.2]
    rw [if_pos this, if_pos hcond]
  · have : ¬ (hint && front.equals back && decide (c.length ≥ 4)) = true := by
      intro h
      simp only [Bool.and_eq_true, decide_eq_true_eq] at h
      exact hcond ⟨h.1.1, h.1.2, h.2⟩
    rw [if_neg this, if_neg hcond]

theorem exists_front_back (c : List Coordinate) (h2 : 2 ≤ c.length) :
    ∃ front back, c.head? = some front ∧ c.getLast? = some back := by
  cases c with
  | nil => simp at h2
  | cons a rest =>
    exact ⟨a, _, rfl, List.getLast?_eq_getLast _ (List.cons_ne_nil _ _)⟩

/-- C11: shape classification. In a store built by `record` calls, when the
coordinate sequence `c` resolved for `(nodes, t)` has at least 2 entries,
`forgeGeometry` builds the polygon with the single ring `c` exactly when
`looksLikePolygon` is set, the first and the last coordinate of `c` compare
equal with `==` and `c` has at least 4 entries; otherwise it builds the line
string through `c`. The geometry built is the one returned (with SRID 900913)
unless the geometry factory throws, and then `NULL` is returned. -/
theorem forgeGeometry_classification (f : GeometryFactory) (se : Bool)
    (calls : List RecordCall) (nodes : List osm_object_id_t) (t : time_t) (hint : Bool) :
    ∃ c, (Nodestore.build se calls).forgeCoordinates nodes t [] = some c ∧
      (2 ≤ c.length →
        ∃ front back, c.head? = some front ∧ c.getLast? = some back ∧
          (Nodestore.build se calls).forgeGeometry f nodes t hint =
            some (if hint = true ∧ front.equals back = true ∧ 4 ≤ c.length then
                (if f.createPolygonThrows c = true then none
                  else some (Geometry.Polygon c 900913))
              else
                (if f.createLineStringThrows c = true then none
                  else some (Geometry.LineString c 900913))) ∧
          ((∃ shell srid, (Nodestore.build se calls).forgeGeometry f nodes t hint =
              some (some (Geometry.Polygon shell srid))) ↔
            (hint = true ∧ front.equals back = true ∧ 4 ≤ c.length) ∧
              f.createPolygonThrows c = false) ∧
          ((∃ points srid, (Nodestore.build se calls).forgeGeometry f nodes t hint =
              some (some (Geometry.LineString points srid))) ↔
            ¬ (hint = true ∧ front.equals back = true ∧ 4 ≤ c.length) ∧
              f.createLineStringThrows c = false)) := by
  have hwf := Nodestore.wellFormed_build se calls
  refine ⟨_, Nodestore.forgeCoordinates_eq _ hwf nodes t [], ?_⟩
  simp only [List.nil_append]
  intro h2
  obtain ⟨front, back, hf, hb⟩ := exists_front_back _ h2
  have heq := forgeFromCoordinates_eq f _ hint front back h2 hf hb
  refine ⟨front, back, hf, hb, ?_, ?_, ?_⟩
  · rw [Nodestore.forgeGeometry_eq f _ hwf nodes t hint, heq]
  · rw [Nodestore.forgeGeometry_eq f _ hwf nodes t hint, heq]
    by_cases hcond : hint = true ∧ front.equals back = true ∧
        4 ≤ ((Nodestore.build se calls).resolved t nodes).length
    · by_cases hp : f.createPolygonThrows ((Nodestore.build se calls).resolved t nodes) = true
      · simp [hcond, hp]
      · simp [hcond, hp]
    · by_cases hl : f.createLineStringThrows ((Nodestore.build se calls).resolved t nodes) = true
      · simp [hcond, hl]
      · simp [hcond, hl]
  · rw [Nodestore.forgeGeometry_eq f _ hwf nodes t hint, heq]
    by_cases hcond : hint = true ∧ front.equals back = true ∧
        4 ≤ ((Nodestore.build se calls).resolved t nodes).length
    · by_cases hp : f.createPolygonThrows ((Nodestore.build se calls).resolved t nodes) = true
      · simp [hcond, hp]
      · simp [hcond, hp]
    · by_cases hl : f.createLineStringThrows ((Nodestore.build se calls).resolved t nodes) = true
      · simp [hcond, hl]
      · simp [hcond, hl]

theorem forgeGeometry_classification_witness :
    (Nodestore.build false triangle).forgeGeometry acceptingFactory [1, 2, 3, 1] 100 true =
        some (some (Geometry.Polygon
          [⟨d10, d20, DoubleNotANumber⟩, ⟨d11, d21, DoubleNotANumber⟩,
            ⟨d12, d20, DoubleNotANumber⟩, ⟨d10, d20, DoubleNotANumber⟩] 900913)) ∧
      (Nodestore.build false triangle).forgeGeometry acceptingFactory [1, 2, 3, 1] 100 false =
        some (some (Geometry.LineString
          [⟨d10, d20, DoubleNotANumber⟩, ⟨d11, d21, DoubleNotANumber⟩,
            ⟨d12, d20, DoubleNotANumber⟩, ⟨d10, d20, DoubleNotANumber⟩] 900913)) ∧
      (Nodestore.build false triangle).forgeGeometry acceptingFactory [1, 2, 1] 100 true =
        some (some (Geometry.LineString
          [⟨d10, d20, DoubleNotANumber⟩, ⟨d11, d21, DoubleNotANumber⟩,
            ⟨d10, d20, DoubleNotANumber⟩] 900913)) := by
  have key : ∀ (nodes : List osm_object_id_t) (hint : Bool) (c : List Coordinate)
      (front back : Coordinate),
      (Nodestore.build false triangle).forgeCoordinates nodes 100 [] = some c →
      2 ≤ c.length → c.head? = some front → c.getLast? = some back →
      (Nodestore.build false triangle).forgeGeometry acceptingFactory nodes 100 hint =
        some (if hint = true ∧ front.equals back = true ∧ 4 ≤ c.length then
            some (Geometry.Polygon c 900913)
          else some (Geometry.LineString c 900913)) := by
    intro nodes hint c front back hc h2 hf hb
    obtain ⟨c', hc', h⟩ :=
      forgeGeometry_classification acceptingFactory false triangle nodes 100 hint
    rw [hc] at hc'
    cases hc'
    obtain ⟨front', back', hf', hb', heq, -, -⟩ := h h2
    rw [hf] at hf'
    rw [hb] at hb'
    cases hf'
    cases hb'
    rw [heq]
    simp [acceptingFactory]
  refine ⟨?_, ?_, ?_⟩
  · rw [key [1, 2, 3, 1] true
      [⟨d10, d20, DoubleNotANumber⟩, ⟨d11, d21, DoubleNotANumber⟩,
        ⟨d12, d20, DoubleNotANumber⟩, ⟨d10, d20, DoubleNotANumber⟩]
      ⟨d10, d20, DoubleNotANumber⟩ ⟨d10, d20, DoubleNotANumber⟩
      (by decide) (by decide) rfl rfl]
    decide
  · rw [key [1, 2, 3, 1] false
      [⟨d10, d20, DoubleNotANumber⟩, ⟨d11, d21, DoubleNotANumber⟩,
        ⟨d12, d20, DoubleNotANumber⟩, ⟨d10, d20, DoubleNotANumber⟩]
      ⟨d10, d20, DoubleNotANumber⟩ ⟨d10, d20, DoubleNotANumber⟩
      (by decide) (by decide) rfl rfl]
    decide
  · rw [key [1, 2, 1] true
      [⟨d10, d20, DoubleNotANumber⟩, ⟨d11, d21, DoubleNotANumber⟩,
        ⟨d10, d20, DoubleNotANumber⟩]
      ⟨d10, d20, DoubleNotANumber⟩ ⟨d10, d20, DoubleNotANumber⟩
      (by decide) (by decide) rfl rfl]
    decide

/-! ## The resolved coordinates -/

theorem Nodestore.lookup_build_call (se : Bool) (calls : List RecordCall)
    (id : osm_object_id_t) (t : time_t) (h : ∃ c0 ∈ calls, c0.id = id) :
    ∃ c, firstRecorded calls id c.t = some c ∧
      (Nodestore.build se calls).lookup id t = some (c.info, true) := by
  obtain ⟨e, hsel, hlook⟩ := Nodestore.lookup_build se calls id t h
  obtain ⟨c, hfirst, -, -, hct, hinfo⟩ :=
    Nodestore.mem_calls_of_mem_history se calls id e (timemap.select_mem _ _ _ hsel)
  exact ⟨c, by rw [hct]; exact hfirst, by rw [hlook, hinfo]⟩

theorem Nodestore.resolves_eq (s : Nodestore) (h : s.wellFormed) (t : time_t)
    (id : osm_object_id_t) :
    s.resolves t id = (nodemap.find s.m_nodemap id).isSome := by
  unfold Nodestore.resolves
  cases hf : nodemap.find s.m_nodemap id with
  | none => simp [Nodestore.lookup_of_find_none s id t hf]
  | some tm =>
    obtain ⟨e, he⟩ := timemap.select_isSome tm t (h id tm hf).1
    simp [Nodestore.lookup_of_find s id t tm hf, he]

theorem Nodestore.coordinateOf_eq_some_iff (s : Nodestore) (t : time_t)
    (id : osm_object_id_t) (co : Coordinate) :
    s.coordinateOf t id = some co ↔
      ∃ info, s.lookup id t = some (info, true) ∧
        co = Coordinate.mk info.lat info.lon DoubleNotANumber := by
  unfold Nodestore.coordinateOf
  cases hl : s.lookup id t with
  | none => simp
  | some p =>
    obtain ⟨info, found⟩ := p
    cases found
    · simp
    · simp [eq_comm]

theorem Nodestore.resolved_append (s : Nodestore) (t : time_t)
    (nodes nodes' : List osm_object_id_t) :
    s.resolved t (nodes ++ nodes') = s.resolved t nodes ++ s.resolved t nodes' := by
  simp [Nodestore.resolved, List.filterMap_append]

/-- C12: in a store built by `record` calls, the coordinate sequence that
`forgeGeometry` assembles for `(nodes, t)` is the list obtained by mapping
`lookup(ref, t)` over the references in their order and dropping those with
`found = false`: a reference contributes the coordinate of its looked-up
position exactly when `found` is set. The sequence of a concatenated list is
the concatenation of the sequences, so order and repetitions are kept, and its
length is the number of references whose id has a history. -/
theorem forgeCoordinates_filterMap (se : Bool) (calls : List RecordCall)
    (nodes : List osm_object_id_t) (t : time_t) :
    (Nodestore.build se calls).forgeCoordinates nodes t [] =
        some (nodes.filterMap ((Nodestore.build se calls).coordinateOf t)) ∧
      (∀ id co, (Nodestore.build se calls).coordinateOf t id = some co ↔
        ∃ info, (Nodestore.build se calls).lookup id t = some (info, true) ∧
          co = Coordinate.mk info.lat info.lon DoubleNotANumber) ∧
      (∀ id, (Nodestore.build se calls).coordinateOf t id = none ↔
        ∃ info, (Nodestore.build se calls).lookup id t = some (info, false)) ∧
      (∀ nodes', (Nodestore.build se calls).forgeCoordinates (nodes ++ nodes') t [] =
        some (nodes.filterMap ((Nodestore.build se calls).coordinateOf t) ++
          nodes'.filterMap ((Nodestore.build se calls).coordinateOf t))) ∧
      (nodes.filterMap ((Nodestore.build se calls).coordinateOf t)).length =
        (nodes.filter (fun id =>
          (nodemap.find (Nodestore.build se calls).m_nodemap id).isSome)).length ∧
      (nodes.filterMap ((Nodestore.build se calls).coordinateOf t)).length =
        (nodes.filter (fun id => calls.any (fun c => decide (c.id = id)))).length := by
  have hwf := Nodestore.wellFormed_build se calls
  have h1 := Nodestore.forgeCoordinates_eq _ hwf nodes t []
  simp only [List.nil_append, Nodestore.resolved] at h1
  have hres : (Nodestore.build se calls).resolves t = fun id =>
      (nodemap.find (Nodestore.build se calls).m_nodemap id).isSome :=
    funext (fun id => Nodestore.resolves_eq _ hwf t id)
  have hlen := Nodestore.length_resolved (Nodestore.build se calls) t nodes
  rw [hres] at hlen
  simp only [Nodestore.resolved] at hlen
  refine ⟨h1, fun id co => Nodestore.coordinateOf_eq_some_iff _ t id co, ?_, ?_, hlen, ?_⟩
  · intro id
    obtain ⟨r, hr⟩ := Nodestore.lookup_isSome _ hwf id t
    obtain ⟨info, found⟩ := r
    unfold Nodestore.coordinateOf
    rw [hr]
    cases found <;> simp
  · intro nodes'
    have h2 := Nodestore.forgeCoordinates_eq _ hwf (nodes ++ nodes') t []
    simp only [List.nil_append, Nodestore.resolved_append] at h2
    exact h2
  · rw [hlen]
    congr 1
    apply List.filter_congr
    intro id _
    cases hf : nodemap.find (Nodestore.build se calls).m_nodemap id with
    | none =>
      have := (Nodestore.find_build_eq_none se calls id).mp hf
      simp only [Option.isSome_none]
      symm
      rw [List.any_eq_false]
      intro c hc
      simpa using this c hc
    | some tm =>
      simp only [Option.isSome_some]
      symm
      rw [List.any_eq_true]
      by_contra hno
      have hnone := (Nodestore.find_build_eq_none se calls id).mpr (by
        intro c hc hid
        exact hno ⟨c, hc, by simpa using hid⟩)
      rw [hf] at hnone
      exact Option.noConfusion hnone

theorem forgeCoordinates_filterMap_witness :
    (Nodestore.build false scenario).forgeCoordinates [1, 7, 2, 1] 120 [] =
      some [⟨d10, d20, DoubleNotANumber⟩, ⟨d12, d22, DoubleNotANumber⟩,
        ⟨d10, d20, DoubleNotANumber⟩] := by
  rw [(forgeCoordinates_filterMap false scenario [1, 7, 2, 1] 120).1]
  decide

/-- C13: coordinates are emitted in longitude/latitude order. In a store built
by `record` calls, for a reference `id` with a recorded version, the version
`record(id, v, ts, lon, lat)` that `lookup(id, t)` selects gives the one
coordinate `forgeGeometry` pushes for the reference, with `x = lon` and
`y = lat`. -/
theorem forgeCoordinates_lon_lat (se : Bool) (calls : List RecordCall)
    (id : osm_object_id_t) (t : time_t) (h : ∃ c0 ∈ calls, c0.id = id) :
    ∃ c co, firstRecorded calls id c.t = some c ∧
      (Nodestore.build se calls).lookup id t = some (c.info, true) ∧
      (∀ acc, (Nodestore.build se calls).forgeCoordinates [id] t acc = some (acc ++ [co])) ∧
      co.x = c.lon ∧ co.y = c.lat := by
  obtain ⟨c, hfirst, hlook⟩ := Nodestore.lookup_build_call se calls id t h
  refine ⟨c, Coordinate.mk c.lon c.lat DoubleNotANumber, hfirst, hlook, ?_, rfl, rfl⟩
  intro acc
  simp [Nodestore.forgeCoordinates, hlook, RecordCall.info]

theorem forgeCoordinates_lon_lat_witness :
    ∃ c co, firstRecorded scenario 2 c.t = some c ∧
      (Nodestore.build false scenario).lookup 2 120 = some (c.info, true) ∧
      (∀ acc, (Nodestore.build false scenario).forgeCoordinates [2] 120 acc =
        some (acc ++ [co])) ∧
      co.x = c.lon ∧ co.y = c.lat :=
  forgeCoordinates_lon_lat false scenario 2 120 ⟨⟨2, 1, 150, d12, d22⟩, by decide, by decide⟩

/-- C19: the `Nodeinfo` returned by `lookup` carries the recorded values under
swapped field names. In a store built by `record` calls, for the version
`record(id, v, ts, lon, lat)` that `lookup(id, t)` selects, the field `lat` of
the returned struct holds the argument `lon` and its field `lon` holds the
argument `lat`. -/
theorem lookup_swapped_fields (se : Bool) (calls : List RecordCall)
    (id : osm_object_id_t) (t : time_t) (h : ∃ c0 ∈ calls, c0.id = id) :
    ∃ c info, firstRecorded calls id c.t = some c ∧
      (Nodestore.build se calls).lookup id t = some (info, true) ∧
      info.lat = c.lon ∧ info.lon = c.lat := by
  obtain ⟨c, hfirst, hlook⟩ := Nodestore.lookup_build_call se calls id t h
  exact ⟨c, c.info, hfirst, hlook, rfl, rfl⟩

theorem lookup_swapped_fields_witness :
    ∃ c info, firstRecorded scenario 1 c.t = some c ∧
      (Nodestore.build false scenario).lookup 1 250 = some (info, true) ∧
      info.lat = c.lon ∧ info.lon = c.lat :=
  lookup_swapped_fields false scenario 1 250 ⟨⟨1, 2, 200, d11, d21⟩, by decide, by decide⟩

/-! ## Stores with the same histories -/

theorem Nodestore.collectMinorTimes_congr (s s' : Nodestore)
    (h : ∀ id, nodemap.find s.m_nodemap id = nodemap.find s'.m_nodemap id)
    (nodes : List osm_object_id_t) (from_ to_ : time_t) (acc : List time_t) :
    s.collectMinorTimes nodes from_ to_ acc = s'.collectMinorTimes nodes from_ to_ acc := by
  induction nodes generalizing acc with
  | nil => rfl
  | cons id rest ih =>
    simp only [Nodestore.collectMinorTimes, h id]
    cases nodemap.find s'.m_nodemap id with
    | none => exact ih acc
    | some tm =>
      simp only
      cases timemap.walk (List.drop (timemap.lower_bound tm from_) tm)
          (timemap.lower_bound tm from_)
          (if to_ = 0 then tm.length else timemap.upper_bound tm to_) acc with
      | none => rfl
      | some acc' => exact ih acc'

theorem Nodestore.calculateMinorTimes_congr (s s' : Nodestore)
    (h : ∀ id, nodemap.find s.m_nodemap id = nodemap.find s'.m_nodemap id)
    (nodes : List osm_object_id_t) (from_ to_ : time_t) :
    s.calculateMinorTimes nodes from_ to_ = s'.calculateMinorTimes nodes from_ to_ := by
  unfold Nodestore.calculateMinorTimes
  rw [Nodestore.collectMinorTimes_congr s s' h]

theorem Nodestore.forgeGeometry_congr (f : GeometryFactory) (s s' : Nodestore)
    (h : ∀ id, nodemap.find s.m_nodemap id = nodemap.find s'.m_nodemap id)
    (nodes : List osm_object_id_t) (t : time_t) (hint : Bool) :
    s.forgeGeometry f nodes t hint = s'.forgeGeometry f nodes t hint := by
  unfold Nodestore.forgeGeometry
  rw [Nodestore.forgeCoordinates_congr s s' nodes t t []
    (fun id _ => Nodestore.lookup_congr s s' id t (h id))]

theorem timemap.eq_of_mem_iff (a b : timemap) (ha : timemap.ordered a)
    (hb : timemap.ordered b) (h : ∀ e, e ∈ a ↔ e ∈ b) : a = b := by
  haveI : IsAntisymm (time_t × Nodeinfo) (fun x y => x.1 < y.1) :=
    ⟨fun x y h1 h2 => absurd h1 (not_lt.mpr (le_of_lt h2))⟩
  have hna : a.Nodup := List.Pairwise.imp (fun {x y} hxy hEq => by
    rw [hEq] at hxy; exact lt_irrefl _ hxy) ha
  have hnb : b.Nodup := List.Pairwise.imp (fun {x y} hxy hEq => by
    rw [hEq] at hxy; exact lt_irrefl _ hxy) hb
  exact List.eq_of_perm_of_sorted ((List.perm_ext_iff_of_nodup hna hnb).mpr h) ha hb

/-! ## Streams with pairwise distinct keys -/

theorem firstRecorded_append (pre l : List RecordCall) (id : osm_object_id_t)
    (t : time_t) :
    firstRecorded (pre ++ l) id t = (firstRecorded pre id t).or (firstRecorded l id t) := by
  unfold firstRecorded
  rw [List.find?_append]

theorem firstRecorded_eq_some_iff (l : List RecordCall)
    (hkeys : l.Pairwise (fun a b => ¬ (a.id = b.id ∧ a.t = b.t)))
    (id : osm_object_id_t) (t : time_t) (c : RecordCall) :
    firstRecorded l id t = some c ↔ c ∈ l ∧ c.id = id ∧ c.t = t := by
  constructor
  · exact firstRecorded_some l c id t
  · rintro ⟨hc, hid, ht⟩
    obtain ⟨c', hc'⟩ := firstRecorded_isSome l c hc
    rw [hid, ht] at hc'
    obtain ⟨h1, h2, h3⟩ := firstRecorded_some l c' id t hc'
    have hsym : Symmetric (fun a b : RecordCall => ¬ (a.id = b.id ∧ a.t = b.t)) :=
      fun a b hab hba => hab ⟨hba.1.symm, hba.2.symm⟩
    have : c' = c := by
      by_contra hne
      exact List.Pairwise.forall hsym hkeys h1 hc hne ⟨h2.trans hid.symm, h3.trans ht.symm⟩
    rw [hc', this]

theorem firstRecorded_perm (l l' : List RecordCall) (hperm : l.Perm l')
    (hkeys : l.Pairwise (fun a b => ¬ (a.id = b.id ∧ a.t = b.t)))
    (id : osm_object_id_t) (t : time_t) :
    firstRecorded l id t = firstRecorded l' id t := by
  have hkeys' : l'.Pairwise (fun a b => ¬ (a.id = b.id ∧ a.t = b.t)) :=
    (hperm.pairwise_iff (fun {a b} hab hba => hab ⟨hba.1.symm, hba.2.symm⟩)).mp hkeys
  apply Option.ext
  intro c
  simp only [Option.mem_def]
  rw [firstRecorded_eq_some_iff l hkeys, firstRecorded_eq_some_iff l' hkeys']
  constructor
  · rintro ⟨h1, h2⟩; exact ⟨hperm.subset h1, h2⟩
  · rintro ⟨h1, h2⟩; exact ⟨hperm.symm.subset h1, h2⟩

theorem Nodestore.find_build_perm (se : Bool) (pre l l' : List RecordCall)
    (hperm : l.Perm l')
    (hkeys : l.Pairwise (fun a b => ¬ (a.id = b.id ∧ a.t = b.t)))
    (id : osm_object_id_t) :
    nodemap.find (Nodestore.build se (pre ++ l)).m_nodemap id =
      nodemap.find (Nodestore.build se (pre ++ l')).m_nodemap id := by
  have hhist : (Nodestore.build se (pre ++ l)).history id =
      (Nodestore.build se (pre ++ l')).history id := by
    apply timemap.eq_of_mem_iff
    · exact Nodestore.ordered_history _ (Nodestore.wellFormed_build se _) id
    · exact Nodestore.ordered_history _ (Nodestore.wellFormed_build se _) id
    · intro e
      obtain ⟨ts, info⟩ := e
      rw [Nodestore.mem_history_build, Nodestore.mem_history_build, firstRecorded_append,
        firstRecorded_append, firstRecorded_perm l l' hperm hkeys]
  have hmem : ∀ c, c ∈ pre ++ l ↔ c ∈ pre ++ l' := by
    intro c
    simp only [List.mem_append]
    constructor
    · rintro (h | h)
      · exact Or.inl h
      · exact Or.inr (hperm.subset h)
    · rintro (h | h)
      · exact Or.inl h
      · exact Or.inr (hperm.symm.subset h)
  cases h1 : nodemap.find (Nodestore.build se (pre ++ l)).m_nodemap id with
  | none =>
    have hno := (Nodestore.find_build_eq_none se _ id).mp h1
    symm
    exact (Nodestore.find_build_eq_none se _ id).mpr
      (fun c hc => hno c ((hmem c).mpr hc))
  | some tm =>
    cases h2 : nodemap.find (Nodestore.build se (pre ++ l')).m_nodemap id with
    | none =>
      have hno := (Nodestore.find_build_eq_none se _ id).mp h2
      have := (Nodestore.find_build_eq_none se (pre ++ l) id).mpr
        (fun c hc => hno c ((hmem c).mp hc))
      rw [h1] at this
      exact Option.noConfusion this
    | some tm' =>
      rw [Nodestore.history_of_find _ _ _ h1, Nodestore.history_of_find _ _ _ h2] at hhist
      rw [hhist]

/-- C14: recording order does not matter. After any stream `pre` of `record`
calls, two streams `l` and `l'` that are permutations of each other and whose
`(id, timestamp)` keys are pairwise distinct lead to stores that agree on
`lookup(id, t)` for every id and time, on `calculateMinorTimes` for every node
list and window, and on `forgeGeometry`. With `l = [a, b]` and `l' = [b, a]`
these are two `record` calls with different keys applied in either order to
the same store; with `pre` empty, any permutation of a stream with pairwise
distinct keys. -/
theorem record_order_irrelevant (se : Bool) (pre l l' : List RecordCall)
    (hperm : l.Perm l')
    (hkeys : l.Pairwise (fun a b => ¬ (a.id = b.id ∧ a.t = b.t))) :
    (∀ id t, (Nodestore.build se (pre ++ l)).lookup id t =
        (Nodestore.build se (pre ++ l')).lookup id t) ∧
      (∀ nodes from_ to_, (Nodestore.build se (pre ++ l)).calculateMinorTimes nodes from_ to_ =
        (Nodestore.build se (pre ++ l')).calculateMinorTimes nodes from_ to_) ∧
      (∀ f nodes t hint, (Nodestore.build se (pre ++ l)).forgeGeometry f nodes t hint =
        (Nodestore.build se (pre ++ l')).forgeGeometry f nodes t hint) := by
  have hfind := Nodestore.find_build_perm se pre l l' hperm hkeys
  exact ⟨fun id t => Nodestore.lookup_congr _ _ id t (hfind id),
    fun nodes from_ to_ => Nodestore.calculateMinorTimes_congr _ _ hfind nodes from_ to_,
    fun f nodes t hint => Nodestore.forgeGeometry_congr f _ _ hfind nodes t hint⟩

theorem record_order_irrelevant_witness :
    (∀ id t,
      (((Nodestore.build false scenario).record 2 2 140 d11 d21).record 1 3 50 d12 d22).lookup
          id t =
        (((Nodestore.build false scenario).record 1 3 50 d12 d22).record 2 2 140 d11
          d21).lookup id t) ∧
      (∀ nodes from_ to_,
        (((Nodestore.build false scenario).record 2 2 140 d11 d21).record 1 3 50 d12
            d22).calculateMinorTimes nodes from_ to_ =
          (((Nodestore.build false scenario).record 1 3 50 d12 d22).record 2 2 140 d11
            d21).calculateMinorTimes nodes from_ to_) := by
  have h := record_order_irrelevant false scenario
    [⟨2, 2, 140, d11, d21⟩, ⟨1, 3, 50, d12, d22⟩] [⟨1, 3, 50, d12, d22⟩, ⟨2, 2, 140, d11, d21⟩]
    (List.Perm.swap _ _ _) (by decide)
  exact ⟨h.1, h.2.1⟩

/-! ## The frame of `record` -/

theorem timemap.mem_insert_of_mem (tm : timemap) (t : time_t) (info : Nodeinfo)
    (e : time_t × Nodeinfo) (h : e ∈ tm) : e ∈ timemap.insert tm t info := by
  induction tm with
  | nil => simp at h
  | cons a rest ih =>
    obtain ⟨k, v⟩ := a
    simp only [timemap.insert]
    by_cases h1 : t < k
    · simp only [h1, if_true]
      exact List.mem_cons_of_mem _ h
    · by_cases h2 : k < t
      · simp only [h1, if_false, h2, if_true]
        rcases List.mem_cons.mp h with h | h
        · exact List.mem_cons.mpr (Or.inl h)
        · exact List.mem_cons_of_mem _ (ih h)
      · simpa only [h1, if_false, h2] using h

theorem timemap.mem_or_eq_of_mem_insert (tm : timemap) (t : time_t) (info : Nodeinfo)
    (e : time_t × Nodeinfo) (h : e ∈ timemap.insert tm t info) :
    e ∈ tm ∨ e = (t, info) := by
  induction tm with
  | nil =>
    simp only [timemap.insert, List.mem_singleton] at h
    exact Or.inr h
  | cons a rest ih =>
    obtain ⟨k, v⟩ := a
    simp only [timemap.insert] at h
    by_cases h1 : t < k
    · simp only [h1, if_true] at h
      rcases List.mem_cons.mp h with h | h
      · exact Or.inr h
      · exact Or.inl h
    · by_cases h2 : k < t
      · simp only [h1, if_false, h2, if_true] at h
        rcases List.mem_cons.mp h with h | h
        · exact Or.inl (List.mem_cons.mpr (Or.inl h))
        · rcases ih h with h | h
          · exact Or.inl (List.mem_cons_of_mem _ h)
          · exact Or.inr h
      · simp only [h1, if_false, h2] at h
        exact Or.inl h

theorem timemap.length_insert_le (tm : timemap) (t : time_t) (info : Nodeinfo) :
    (timemap.insert tm t info).length ≤ tm.length + 1 := by
  induction tm with
  | nil => simp [timemap.insert]
  | cons a rest ih =>
    obtain ⟨k, v⟩ := a
    simp only [timemap.insert]
    split_ifs
    · simp
    · simp only [List.length_cons]; omega
    · simp

/-- C15: the store grows only by insertion. For every store and every call
`record(id, v, ts, lon, lat)`: every entry of every history is still in that
history afterwards, with its position; the histories of all other ids, and
`lookup` on them, are unchanged; every entry of the history of `id` afterwards
was there before or is the pair of `ts` and the recorded position, and the
history of `id` is longer by at most one entry. A store whose histories have
pairwise distinct, ascending timestamps keeps that property. -/
theorem record_grows_by_insertion (s : Nodestore) (id : osm_object_id_t)
    (v : osm_version_t) (ts : time_t) (lon lat : Double) :
    (∀ id0 e, e ∈ s.history id0 → e ∈ (s.record id v ts lon lat).history id0) ∧
      (∀ id', id' ≠ id →
        (s.record id v ts lon lat).history id' = s.history id' ∧
          ∀ t, (s.record id v ts lon lat).lookup id' t = s.lookup id' t) ∧
      (∀ e ∈ (s.record id v ts lon lat).history id,
        e ∈ s.history id ∨ e = (ts, ⟨lon, lat⟩)) ∧
      ((s.record id v ts lon lat).history id).length ≤ (s.history id).length + 1 ∧
      (s.wellFormed → (s.record id v ts lon lat).wellFormed) := by
  refine ⟨?_, ?_, ?_, ?_, fun h => Nodestore.wellFormed_record s h id v ts lon lat⟩
  · intro id0 e he
    rw [Nodestore.history_record]
    by_cases h : id = id0
    · subst h
      simp only [if_true]
      exact timemap.mem_insert_of_mem _ _ _ _ he
    · simpa only [h, if_false] using he
  · intro id' hne
    have hne' : ¬ id = id' := fun h => hne h.symm
    refine ⟨by rw [Nodestore.history_record]; simp only [hne', if_false], ?_⟩
    intro t
    apply Nodestore.lookup_congr
    rw [Nodestore.find_record]
    simp only [hne', if_false]
  · intro e he
    rw [Nodestore.history_record] at he
    simp only [if_true] at he
    exact timemap.mem_or_eq_of_mem_insert _ _ _ _ he
  · rw [Nodestore.history_record]
    simp only [if_true]
    exact timemap.length_insert_le _ _ _

theorem record_grows_by_insertion_witness :
    ((Nodestore.build false scenario).record 2 2 140 d11 d21).wellFormed :=
  (record_grows_by_insertion (Nodestore.build false scenario) 2 2 140 d11 d21).2.2.2.2
    (Nodestore.wellFormed_build false scenario)

/-! ## The scenario -/

/-- C16: scenario, timeline. In the store obtained from an empty one by
`record(1, _, 100, 10, 20)`, `record(1, _, 200, 11, 21)` and
`record(2, _, 150, 12, 22)`, the call `calculateMinorTimes([1, 2], 0, 300)`
returns exactly `[100, 150, 200]`. -/
theorem scenario_minor_times (se : Bool) (v1 v2 v3 : osm_version_t) :
    (Nodestore.build se [⟨1, v1, 100, d10, d20⟩, ⟨1, v2, 200, d11, d21⟩,
        ⟨2, v3, 150, d12, d22⟩]).calculateMinorTimes [1, 2] 0 300 =
      some [100, 150, 200] := by
  rfl

/-- C17: scenario, geometry. In the same store `forgeGeometry([1, 2], 120,
false)` resolves node 1 to its version at 100 and node 2, by the
before-history fallback, to its version at 150, and, the factory not throwing
on the two points, returns the line string through `(10, 20)` and `(12, 22)`
with SRID 900913. -/
theorem scenario_geometry (f : GeometryFactory) (se : Bool) (v1 v2 v3 : osm_version_t)
    (hf : f.createLineStringThrows
      [⟨d10, d20, DoubleNotANumber⟩, ⟨d12, d22, DoubleNotANumber⟩] = false) :
    (Nodestore.build se [⟨1, v1, 100, d10, d20⟩, ⟨1, v2, 200, d11, d21⟩,
        ⟨2, v3, 150, d12, d22⟩]).lookup 1 120 = some (⟨d10, d20⟩, true) ∧
      (Nodestore.build se [⟨1, v1, 100, d10, d20⟩, ⟨1, v2, 200, d11, d21⟩,
        ⟨2, v3, 150, d12, d22⟩]).lookup 2 120 = some (⟨d12, d22⟩, true) ∧
      (Nodestore.build se [⟨1, v1, 100, d10, d20⟩, ⟨1, v2, 200, d11, d21⟩,
        ⟨2, v3, 150, d12, d22⟩]).forgeGeometry f [1, 2] 120 false =
        some (some (Geometry.LineString
          [⟨d10, d20, DoubleNotANumber⟩, ⟨d12, d22, DoubleNotANumber⟩] 900913)) := by
  refine ⟨rfl, rfl, ?_⟩
  have hc : (Nodestore.build se [⟨1, v1, 100, d10, d20⟩, ⟨1, v2, 200, d11, d21⟩,
      ⟨2, v3, 150, d12, d22⟩]).forgeCoordinates [1, 2] 120 [] =
      some [⟨d10, d20, DoubleNotANumber⟩, ⟨d12, d22, DoubleNotANumber⟩] := rfl
  unfold Nodestore.forgeGeometry
  rw [hc]
  simp [forgeFromCoordinates, hf]

theorem scenario_geometry_witness :
    (Nodestore.build false scenario).forgeGeometry acceptingFactory [1, 2] 120 false =
      some (some (Geometry.LineString
        [⟨d10, d20, DoubleNotANumber⟩, ⟨d12, d22, DoubleNotANumber⟩] 900913)) :=
  (scenario_geometry acceptingFactory false 1 2 1 rfl).2.2

/-! ## No empty history -/

theorem nodemap.find_eq_none_iff (m : nodemap) (id : osm_object_id_t) :
    nodemap.find m id = none ↔ ∀ p ∈ m, p.1 ≠ id := by
  induction m with
  | nil => simp [nodemap.find]
  | cons a rest ih =>
    obtain ⟨k, v⟩ := a
    simp only [nodemap.find, List.mem_cons, forall_eq_or_imp]
    by_cases h : k = id
    · simp [h]
    · simp [h, ih]

theorem nodemap.writeThrough_insert (m : nodemap) (id : osm_object_id_t)
    (tm : timemap) (f : timemap → timemap) (h : nodemap.find m id = none) :
    nodemap.writeThrough (nodemap.insert m id tm) id f = nodemap.insert m id (f tm) := by
  induction m with
  | nil => simp [nodemap.insert, nodemap.writeThrough]
  | cons a rest ih =>
    obtain ⟨k, v⟩ := a
    simp only [nodemap.find] at h
    by_cases hk : k = id
    · simp [hk] at h
    · simp only [hk, if_false] at h
      simp only [nodemap.insert]
      by_cases h1 : id < k
      · simp [h1, nodemap.writeThrough]
      · have h2 : k < id := lt_of_le_of_ne (not_lt.mp h1) hk
        simp [h1, h2, nodemap.writeThrough, hk, ih h]

theorem nodemap.mem_insert_cases (m : nodemap) (id : osm_object_id_t) (tm : timemap)
    (p : osm_object_id_t × timemap) (h : p ∈ nodemap.insert m id tm) :
    p ∈ m ∨ p = (id, tm) := by
  induction m with
  | nil =>
    simp only [nodemap.insert, List.mem_singleton] at h
    exact Or.inr h
  | cons a rest ih =>
    obtain ⟨k, v⟩ := a
    simp only [nodemap.insert] at h
    by_cases h1 : id < k
    · simp only [h1, if_true] at h
      rcases List.mem_cons.mp h with h | h
      · exact Or.inr h
      · exact Or.inl h
    · by_cases h2 : k < id
      · simp only [h1, if_false, h2, if_true] at h
        rcases List.mem_cons.mp h with h | h
        · exact Or.inl (List.mem_cons.mpr (Or.inl h))
        · rcases ih h with h | h
          · exact Or.inl (List.mem_cons_of_mem _ h)
          · exact Or.inr h
      · simp only [h1, if_false, h2] at h
        exact Or.inl h

theorem nodemap.mem_writeThrough (m : nodemap) (id : osm_object_id_t)
    (f : timemap → timemap) (p : osm_object_id_t × timemap)
    (h : p ∈ nodemap.writeThrough m id f) : p ∈ m ∨ ∃ tm, p.2 = f tm := by
  induction m with
  | nil => simp [nodemap.writeThrough] at h
  | cons a rest ih =>
    obtain ⟨k, v⟩ := a
    simp only [nodemap.writeThrough] at h
    by_cases hk : k = id
    · simp only [hk, if_true] at h
      rcases List.mem_cons.mp h with h | h
      · exact Or.inr ⟨v, by rw [h]⟩
      · exact Or.inl (List.mem_cons_of_mem _ h)
    · simp only [hk, if_false] at h
      rcases List.mem_cons.mp h with h | h
      · exact Or.inl (List.mem_cons.mpr (Or.inl h))
      · rcases ih h with h | h
        · exact Or.inl (List.mem_cons_of_mem _ h)
        · exact Or.inr h

theorem Nodestore.nonempty_record (s : Nodestore) (h : ∀ p ∈ s.m_nodemap, p.2 ≠ [])
    (id : osm_object_id_t) (v : osm_version_t) (t : time_t) (lon lat : Double) :
    ∀ p ∈ (s.record id v t lon lat).m_nodemap, p.2 ≠ [] := by
  intro p hp
  unfold Nodestore.record at hp
  cases hf : nodemap.find s.m_nodemap id with
  | none =>
    simp only [hf, nodemap.writeThrough_insert _ _ _ _ hf] at hp
    rcases nodemap.mem_insert_cases _ _ _ _ hp with hp | hp
    · exact h p hp
    · rw [hp]
      exact timemap.insert_ne_nil _ _ _
  | some tm =>
    simp only [hf] at hp
    rcases nodemap.mem_writeThrough _ _ _ _ hp with hp | ⟨tm', hp⟩
    · exact h p hp
    · rw [hp]
      exact timemap.insert_ne_nil _ _ _

theorem Nodestore.nonempty_build (se : Bool) (calls : List RecordCall) :
    ∀ p ∈ (Nodestore.build se calls).m_nodemap, p.2 ≠ [] := by
  induction calls using List.reverseRecOn with
  | nil => simp [Nodestore.build, Nodestore.recordAll, Nodestore.new]
  | append_singleton l c ih =>
    rw [Nodestore.build_concat]
    exact Nodestore.nonempty_record _ ih _ _ _ _ _

/-- C18: in every store reached from the empty one by `record` calls, every
timemap in the node map is non-empty. Hence in `lookup`, when `upper_bound(t)`
is `begin()` and the iterator is not stepped back, it points at the first
entry, and `lookup` returns for every id and time: it never dereferences the
end of a history. -/
theorem histories_nonempty (se : Bool) (calls : List RecordCall) :
    (∀ p ∈ (Nodestore.build se calls).m_nodemap, p.2 ≠ []) ∧
      (∀ id tm, nodemap.find (Nodestore.build se calls).m_nodemap id = some tm → tm ≠ []) ∧
      (∀ id tm t, nodemap.find (Nodestore.build se calls).m_nodemap id = some tm →
        timemap.upper_bound tm t = 0 → ∃ e, tm[0]? = some e ∧
          (Nodestore.build se calls).lookup id t = some (e.2, true)) ∧
      (∀ id t, ∃ r, (Nodestore.build se calls).lookup id t = some r) := by
  have hwf := Nodestore.wellFormed_build se calls
  refine ⟨Nodestore.nonempty_build se calls, fun id tm h => (hwf id tm h).1, ?_,
    fun id t => Nodestore.lookup_isSome _ hwf id t⟩
  intro id tm t hf h0
  cases tm with
  | nil => exact absurd rfl (hwf id _ hf).1
  | cons a rest =>
    refine ⟨a, by simp, ?_⟩
    rw [Nodestore.lookup_of_find _ _ _ _ hf]
    simp [timemap.select, h0]

theorem histories_nonempty_witness :
    ∃ e, ([(150, ⟨d12, d22⟩)] : timemap)[0]? = some e ∧
      (Nodestore.build false scenario).lookup 2 120 = some (e.2, true) :=
  (histories_nonempty false scenario).2.2.1 2 [(150, ⟨d12, d22⟩)] 120 (by decide) (by decide)

/-! ## The entries the walk visits -/

theorem timemap.take_upper_bound_eq_filter (tm : timemap) (to_ : time_t)
    (h : timemap.ordered tm) :
    tm.take (timemap.upper_bound tm to_) = tm.filter (fun e => decide (e.1 ≤ to_)) := by
  induction tm with
  | nil => rfl
  | cons a rest ih =>
    obtain ⟨k, v⟩ := a
    have hr : timemap.ordered rest := (List.pairwise_cons.mp h).2
    have hk : ∀ e' ∈ rest, k < e'.1 := (List.pairwise_cons.mp h).1
    simp only [timemap.upper_bound]
    by_cases h1 : to_ < k
    · simp only [h1, if_true, List.take_zero]
      symm
      rw [List.filter_eq_nil_iff]
      intro e he
      simp only [decide_eq_true_eq, not_le]
      rcases List.mem_cons.mp he with he | he
      · subst he; exact h1
      · exact lt_trans h1 (hk e he)
    · have h2 : k ≤ to_ := not_lt.mp h1
      simp only [h1, if_false, List.take_succ_cons, ih hr]
      rw [List.filter_cons_of_pos (by simpa using h2)]

theorem timemap.drop_lower_bound_eq_filter (tm : timemap) (from_ : time_t)
    (h : timemap.ordered tm) :
    tm.drop (timemap.lower_bound tm from_) = tm.filter (fun e => decide (from_ ≤ e.1)) := by
  induction tm with
  | nil => rfl
  | cons a rest ih =>
    obtain ⟨k, v⟩ := a
    have hr : timemap.ordered rest := (List.pairwise_cons.mp h).2
    have hk : ∀ e' ∈ rest, k < e'.1 := (List.pairwise_cons.mp h).1
    simp only [timemap.lower_bound]
    by_cases h1 : k < from_
    · simp only [h1, if_true, List.drop_succ_cons, ih hr]
      rw [List.filter_cons_of_neg (by simpa using h1)]
    · simp only [h1, if_false, List.drop_zero]
      symm
      rw [List.filter_eq_self]
      intro e he
      simp only [decide_eq_true_eq]
      rcases List.mem_cons.mp he with he | he
      · subst he; exact not_lt.mp h1
      · exact le_trans (not_lt.mp h1) (le_of_lt (hk e he))

theorem timemap.window_eq_filter (tm : timemap) (from_ to_ : time_t)
    (h : timemap.ordered tm) (hle : from_ ≤ to_) :
    (tm.drop (timemap.lower_bound tm from_)).take
        (timemap.upper_bound tm to_ - timemap.lower_bound tm from_) =
      tm.filter (fun e => decide (from_ ≤ e.1 ∧ e.1 ≤ to_)) := by
  induction tm with
  | nil => rfl
  | cons a rest ih =>
    obtain ⟨k, v⟩ := a
    have hr : timemap.ordered rest := (List.pairwise_cons.mp h).2
    have hk : ∀ e' ∈ rest, k < e'.1 := (List.pairwise_cons.mp h).1
    by_cases h1 : k < from_
    · have h2 : ¬ to_ < k := not_lt.mpr (le_trans (le_of_lt h1) hle)
      simp only [timemap.lower_bound, timemap.upper_bound, h1, if_true, h2, if_false,
        List.drop_succ_cons, Nat.add_sub_add_right, ih hr]
      rw [List.filter_cons_of_neg (by
        simp only [decide_eq_true_eq, not_and]
        intro h3
        exact absurd h1 (not_lt.mpr h3))]
    · have hlb : timemap.lower_bound ((k, v) :: rest) from_ = 0 := by
        simp [timemap.lower_bound, h1]
      rw [hlb, List.drop_zero, Nat.sub_zero, timemap.take_upper_bound_eq_filter _ _ h]
      apply List.filter_congr
      intro e he
      have hfrom : from_ ≤ e.1 := by
        rcases List.mem_cons.mp he with he | he
        · subst he; exact not_lt.mp h1
        · exact le_trans (not_lt.mp h1) (le_of_lt (hk e he))
      simp [hfrom]

/-- C20: well-formed collection range. In a history (a timemap in ascending
key order), for `from ≤ to` with `to ≠ 0` the position of `lower_bound(from)`
is at or before the position of `upper_bound(to)`, which is at or before
`end()`; the loop of `calculateMinorTimes` that walks from the one to the
other returns, without stepping past the end, having pushed exactly the
timestamps of the entries with `from ≤ ts ≤ to`, in order. With `to = 0` the
upper end is `end()`, and for every `from` the loop returns having pushed
exactly the timestamps of the entries with `from ≤ ts`. -/
theorem walk_range_well_formed (tm : timemap) (hord : timemap.ordered tm)
    (from_ to_ : time_t) :
    (from_ ≤ to_ → to_ ≠ 0 →
      timemap.lower_bound tm from_ ≤ timemap.upper_bound tm to_ ∧
        timemap.upper_bound tm to_ ≤ tm.length ∧
        ∀ minor_times, timemap.walk (tm.drop (timemap.lower_bound tm from_))
            (timemap.lower_bound tm from_) (timemap.upper_bound tm to_) minor_times =
          some (minor_times ++
            (tm.filter (fun e => decide (from_ ≤ e.1 ∧ e.1 ≤ to_))).map Prod.fst)) ∧
      (timemap.lower_bound tm from_ ≤ tm.length ∧
        ∀ minor_times, timemap.walk (tm.drop (timemap.lower_bound tm from_))
            (timemap.lower_bound tm from_) tm.length minor_times =
          some (minor_times ++
            (tm.filter (fun e => decide (from_ ≤ e.1))).map Prod.fst)) := by
  have hlen : (tm.drop (timemap.lower_bound tm from_)).length =
      tm.length - timemap.lower_bound tm from_ := List.length_drop _ _
  have hlb := timemap.lower_bound_le_length tm from_
  constructor
  · intro hle _
    have h1 := timemap.lower_bound_le_upper_bound tm from_ to_ hle
    have h2 := timemap.upper_bound_le_length tm to_
    refine ⟨h1, h2, ?_⟩
    intro acc
    have hw := (timemap.walk_eq_some_iff (tm.drop (timemap.lower_bound tm from_))
      (timemap.lower_bound tm from_) (timemap.upper_bound tm to_) acc _).mpr
      ⟨h1, by omega, rfl⟩
    rw [hw, timemap.window_eq_filter tm from_ to_ hord hle]
  · refine ⟨hlb, ?_⟩
    intro acc
    have hw := (timemap.walk_eq_some_iff (tm.drop (timemap.lower_bound tm from_))
      (timemap.lower_bound tm from_) tm.length acc _).mpr ⟨hlb, by omega, rfl⟩
    rw [hw, List.take_of_length_le (le_of_eq hlen),
      timemap.drop_lower_bound_eq_filter tm from_ hord]

theorem walk_range_well_formed_witness :
    timemap.lower_bound [(100, ⟨d10, d20⟩), (200, ⟨d11, d21⟩)] 150 ≤
        timemap.upper_bound [(100, ⟨d10, d20⟩), (200, ⟨d11, d21⟩)] 300 ∧
      timemap.upper_bound [(100, ⟨d10, d20⟩), (200, ⟨d11, d21⟩)] 300 ≤
        ([(100, ⟨d10, d20⟩), (200, ⟨d11, d21⟩)] : timemap).length ∧
      ∀ minor_times, timemap.walk
          (([(100, ⟨d10, d20⟩), (200, ⟨d11, d21⟩)] : timemap).drop
            (timemap.lower_bound [(100, ⟨d10, d20⟩), (200, ⟨d11, d21⟩)] 150))
          (timemap.lower_bound [(100, ⟨d10, d20⟩), (200, ⟨d11, d21⟩)] 150)
          (timemap.upper_bound [(100, ⟨d10, d20⟩), (200, ⟨d11, d21⟩)] 300) minor_times =
        some (minor_times ++
          (([(100, ⟨d10, d20⟩), (200, ⟨d11, d21⟩)] : timemap).filter
            (fun e => decide ((150 : time_t) ≤ e.1 ∧ e.1 ≤ 300))).map Prod.fst) :=
  (walk_range_well_formed [(100, ⟨d10, d20⟩), (200, ⟨d11, d21⟩)]
    (by simp [timemap.ordered]) 150 300).1 (by decide) (by decide)

/-! ## The vertex count -/

/-- C10: in a store built by `record` calls, the coordinate vector that
`forgeGeometry` fills has one entry for every reference of the list that
resolves. When fewer than 2 references resolve, `forgeGeometry` returns `NULL`
whatever the polygon hint is. When at least 2 resolve, it returns a geometry
as soon as the one constructor it calls does not throw: the polygon over the
sequence when the hint is set, the first and last coordinate compare equal and
at least 4 resolved and the ring constructor accepts; the line string over the
sequence in every other case in which the line-string constructor accepts.
Nothing is assumed of the constructor that is not called. -/
theorem forgeGeometry_vertex_count (f : GeometryFactory) (se : Bool)
    (calls : List RecordCall) (nodes : List osm_object_id_t) (t : time_t) (hint : Bool) :
    ∃ c, (Nodestore.build se calls).forgeCoordinates nodes t [] = some c ∧
      c.length = (nodes.filter ((Nodestore.build se calls).resolves t)).length ∧
      (c.length < 2 →
        (Nodestore.build se calls).forgeGeometry f nodes t hint = some none) ∧
      (2 ≤ c.length →
        ∃ front back, c.head? = some front ∧ c.getLast? = some back ∧
          ((hint = true ∧ front.equals back = true ∧ 4 ≤ c.length) →
            f.createPolygonThrows c = false →
            (Nodestore.build se calls).forgeGeometry f nodes t hint =
              some (some (Geometry.Polygon c 900913))) ∧
          (¬ (hint = true ∧ front.equals back = true ∧ 4 ≤ c.length) →
            f.createLineStringThrows c = false →
            (Nodestore.build se calls).forgeGeometry f nodes t hint =
              some (some (Geometry.LineString c 900913))) ∧
          (((hint = true ∧ front.equals back = true ∧ 4 ≤ c.length) ∧
              f.createPolygonThrows c = false) ∨
            (¬ (hint = true ∧ front.equals back = true ∧ 4 ≤ c.length) ∧
              f.createLineStringThrows c = false) →
            ∃ g, (Nodestore.build se calls).forgeGeometry f nodes t hint =
              some (some g))) := by
  have hwf := Nodestore.wellFormed_build se calls
  refine ⟨_, Nodestore.forgeCoordinates_eq _ hwf nodes t [], ?_, ?_, ?_⟩
  · simp only [List.nil_append]
    exact Nodestore.length_resolved _ t nodes
  · intro hlt
    rw [Nodestore.forgeGeometry_eq f _ hwf nodes t hint]
    simp only [List.nil_append] at hlt
    simp [forgeFromCoordinates, hlt]
  · simp only [List.nil_append]
    intro hge
    obtain ⟨front, back, hf, hb⟩ := exists_front_back _ hge
    have heq := forgeFromCoordinates_eq f _ hint front back hge hf hb
    have hpoly : (hint = true ∧ front.equals back = true ∧
          4 ≤ ((Nodestore.build se calls).resolved t nodes).length) →
        f.createPolygonThrows ((Nodestore.build se calls).resolved t nodes) = false →
        (Nodestore.build se calls).forgeGeometry f nodes t hint =
          some (some (Geometry.Polygon ((Nodestore.build se calls).resolved t nodes)
            900913)) := by
      intro hcond hp
      rw [Nodestore.forgeGeometry_eq f _ hwf nodes t hint, heq, if_pos hcond, hp]
      rfl
    have hline : ¬ (hint = true ∧ front.equals back = true ∧
          4 ≤ ((Nodestore.build se calls).resolved t nodes).length) →
        f.createLineStringThrows ((Nodestore.build se calls).resolved t nodes) = false →
        (Nodestore.build se calls).forgeGeometry f nodes t hint =
          some (some (Geometry.LineString ((Nodestore.build se calls).resolved t nodes)
            900913)) := by
      intro hcond hl
      rw [Nodestore.forgeGeometry_eq f _ hwf nodes t hint, heq, if_neg hcond, hl]
      rfl
    refine ⟨front, back, hf, hb, hpoly, hline, ?_⟩
    rintro (⟨hcond, hp⟩ | ⟨hcond, hl⟩)
    · exact ⟨_, hpoly hcond hp⟩
    · exact ⟨_, hline hcond hl⟩

theorem forgeGeometry_vertex_count_witness :
    (Nodestore.build false scenario).forgeGeometry ringRejectingFactory [1, 7, 9] 120 true =
        some none ∧
      (Nodestore.build false scenario).forgeGeometry ringRejectingFactory [1, 2] 120 true =
        some (some (Geometry.LineString
          [⟨d10, d20, DoubleNotANumber⟩, ⟨d12, d22, DoubleNotANumber⟩] 900913)) := by
  constructor
  · obtain ⟨c, -, hlen, hnull, -⟩ :=
      forgeGeometry_vertex_count ringRejectingFactory false scenario [1, 7, 9] 120 true
    apply hnull
    rw [hlen]
    decide
  · obtain ⟨c, hc, -, -, hgeo⟩ :=
      forgeGeometry_vertex_count ringRejectingFactory false scenario [1, 2] 120 true
    have hval : (Nodestore.build false scenario).forgeCoordinates [1, 2] 120 [] =
        some [⟨d10, d20, DoubleNotANumber⟩, ⟨d12, d22, DoubleNotANumber⟩] := by decide
    rw [hval] at hc
    cases hc
    obtain ⟨front, back, hf, hb, -, hline, -⟩ := hgeo (by decide)
    apply hline
    · rintro ⟨-, -, h4⟩
      exact absurd h4 (by decide)
    · rfl

end Importer
